import Mathlib

/-!
Verification development for the package & repository resolution engine of
the `opensrc` CLI.  The registry resolvers (`npm.ts`, `pypi.ts`, `crates.ts`,
`packagist.ts`, `nuget.ts`, `maven.ts`) are shallowly embedded: the pure
computation of each resolver is translated to Lean over `List Char` strings,
with every network fetch result supplied as an explicit input.  JavaScript
string idioms are modelled as follows: a JS string is a `List Char`; an
optional / possibly-absent field is an `Option`; JS falsiness of a string
(`""`, `undefined`) is the predicate used at each site; `String.prototype
.localeCompare` is modelled as lexicographic codepoint comparison (the real
function is locale sensitive); `Number(...)` on an all-digit string is the
exact natural value (JS uses binary floating point, which only diverges
beyond 2^53); the JS regular-expression dot is modelled as matching any
character (the concrete inputs used below contain no newlines); `Array
.prototype.sort` is modelled as a stable merge sort over the comparator.
-/

set_option maxRecDepth 4000

/-- A JavaScript string, modelled as its list of characters. -/
abbrev JStr := List Char

/-- Embed a Lean string literal as a `JStr`. -/
def js (s : String) : JStr := s.toList

/-- Does `l` start with the pattern `pat`? -/
def startsWithL (pat l : JStr) : Bool :=
  match pat, l with
  | [], _ => true
  | _ :: _, [] => false
  | p :: ps, c :: cs => p = c && startsWithL ps cs

/-- Does `l` contain `pat` as a contiguous substring? -/
def containsL (pat : JStr) : JStr → Bool
  | [] => startsWithL pat []
  | c :: rest => startsWithL pat (c :: rest) || containsL pat rest

/-- Does `l` end with the pattern `pat`? -/
def endsWithL (pat l : JStr) : Bool :=
  startsWithL pat.reverse l.reverse

/-- Strip a leading `pat` when present (the JS `replace(/^pat/, rep)` with
replacement `rep`). -/
def replaceStart (pat rep l : JStr) : JStr :=
  if startsWithL pat l then rep ++ l.drop pat.length else l

/-- Drop the suffix `pat` when present (the JS `replace(/pat$/, "")`). -/
def dropSuffixIf (pat l : JStr) : JStr :=
  if endsWithL pat l then (l.reverse.drop pat.length).reverse else l

/-- Remove every trailing occurrence of the character `c`
(the JS `replace(/c+$/, "")`). -/
def dropTrailingChar (c : Char) (l : JStr) : JStr :=
  (l.reverse.dropWhile (· = c)).reverse

/-- Truncate `l` at the first occurrence of `pat`
(the JS `replace(/pat.*$/, "")`). -/
def truncFrom (pat : JStr) : JStr → JStr
  | [] => []
  | c :: rest =>
    if startsWithL pat (c :: rest) then [] else c :: truncFrom pat rest

/-- JS whitespace test for `String.prototype.trim`. -/
def isJsSpace (c : Char) : Bool :=
  c = ' ' || c = '\t' || c = '\n' || c = '\r'

/-- The JS `String.prototype.trim`. -/
def trimL (l : JStr) : JStr :=
  ((l.dropWhile isJsSpace).reverse.dropWhile isJsSpace).reverse

/-- ASCII lowercasing, as performed by `String.prototype.toLowerCase` on the
ASCII inputs that matter here. -/
def toLowerL (l : JStr) : JStr := l.map Char.toLower

/-- Split on a separator character; the list of chunks never shares the
separator (the JS `String.prototype.split(c)`). -/
def splitOnCharL (c : Char) : JStr → List JStr
  | [] => [[]]
  | d :: rest =>
    if d = c then [] :: splitOnCharL c rest
    else
      match splitOnCharL c rest with
      | [] => [[d]]
      | chunk :: chunks => (d :: chunk) :: chunks

/-- Split at the last occurrence of `c`: `some (before, after)` with the
separator removed, `none` when `c` does not occur (models
`String.prototype.lastIndexOf` plus `slice`). -/
def splitAtLastChar (c : Char) (l : JStr) : Option (JStr × JStr) :=
  match l with
  | [] => none
  | d :: rest =>
    match splitAtLastChar c rest with
    | some (a, b) => some (d :: a, b)
    | none => if d = c then some ([], rest) else none

/-- The JS `s.split(c, 2)`: the first chunk together with the second chunk
when a separator occurs (later chunks are discarded by the limit). -/
def jsSplit2 (c : Char) (l : JStr) : JStr × Option JStr :=
  match splitOnCharL c l with
  | [] => ([], none)
  | [x] => (x, none)
  | x :: y :: _ => (x, some y)

/-- Split at the first occurrence of the substring `pat`: `some (before,
after)` with the pattern removed. -/
def splitFirstSub (pat : JStr) (l : JStr) : Option (JStr × JStr) :=
  match l with
  | [] => if startsWithL pat [] then some ([], []) else none
  | c :: rest =>
    if startsWithL pat (c :: rest) then some ([], (c :: rest).drop pat.length)
    else
      match splitFirstSub pat rest with
      | some (a, b) => some (c :: a, b)
      | none => none

/-- First portion of `l` strictly between the first occurrence of `opening`
and the next occurrence of `closing` after it. -/
def firstBetween (opening closing l : JStr) : Option JStr :=
  match splitFirstSub opening l with
  | none => none
  | some (_, rest) =>
    match splitFirstSub closing rest with
    | none => none
    | some (content, _) => some content

/-- Is every character an ASCII digit, with at least one digit
(the JS regular expression `/^\d+$/`)? -/
def isAllDigits (l : JStr) : Bool :=
  !l.isEmpty && l.all Char.isDigit

/-- Numeric value of a digit list. -/
def natOfDigits (l : JStr) : Nat :=
  l.foldl (fun acc c => acc * 10 + (c.toNat - '0'.toNat)) 0

/-- The JS `Number.parseInt(s, 10) || 0`: value of the longest digit
prefix after leading whitespace, `0` when there is none (the inputs this is
applied to contain no sign characters). -/
def parseIntOr0 (l : JStr) : Nat :=
  natOfDigits ((l.dropWhile isJsSpace).takeWhile Char.isDigit)

/-- Lookup in an association list with `JStr` keys (models JS object
property access on a JSON object, in insertion order). -/
def lookupA {α : Type} (l : List (JStr × α)) (k : JStr) : Option α :=
  (l.find? (fun p => p.1 = k)).map (·.2)

/-- JS `a || b` for an optional string operand: the fallback is taken both
when the field is absent and when it is the empty string. -/
def jsOr (o : Option JStr) (d : JStr) : JStr :=
  match o with
  | some v => if v = [] then d else v
  | none => d

/-- JS truthiness of an optional string. -/
def jsTruthy (o : Option JStr) : Bool :=
  match o with
  | some v => !v.isEmpty
  | none => false

/-- Insert an element after every earlier element that sorts at-or-before
it (the stable-insertion step of `sortJS`). -/
def insertJS {α : Type} (le : α → α → Bool) (x : α) : List α → List α
  | [] => [x]
  | y :: ys => if le y x then y :: insertJS le x ys else x :: y :: ys

/-- A stable sort by a JS comparator (negative means `a` sorts first),
modelling `Array.prototype.sort`; implemented as a stable insertion sort,
which agrees with the engine's stable sort on consistent comparators. -/
def sortJS {α : Type} (cmp : α → α → Int) (l : List α) : List α :=
  l.foldl (fun acc x => insertJS (fun a b => cmp a b ≤ 0) x acc) []

/-- A lexicographic comparison loop over an element comparator: a missing
element sorts first, and the first non-tied element comparison decides. -/
def lexCmp {α : Type} (c : α → α → Int) : List α → List α → Int
  | [], [] => 0
  | [], _ :: _ => -1
  | _ :: _, [] => 1
  | a :: as, b :: bs => if c a b ≠ 0 then c a b else lexCmp c as bs

/-- Sign comparison of two characters by codepoint. -/
def charCmp (a b : Char) : Int :=
  if a < b then -1 else if b < a then 1 else 0

/-- Sign-based lexicographic string comparison standing in for
`String.prototype.localeCompare` (see the module comment). -/
def strCmp (a b : JStr) : Int :=
  lexCmp charCmp a b

/-- Equality of `Except` results is decidable componentwise. -/
instance {ε α : Type} [DecidableEq ε] [DecidableEq α] : DecidableEq (Except ε α) :=
  fun a b =>
    match a, b with
    | Except.error x, Except.error y =>
      if h : x = y then isTrue (by rw [h])
      else isFalse (fun hh => h (by simpa using hh))
    | Except.error _, Except.ok _ => isFalse (fun hh => Except.noConfusion hh)
    | Except.ok _, Except.error _ => isFalse (fun hh => Except.noConfusion hh)
    | Except.ok x, Except.ok y =>
      if h : x = y then isTrue (by rw [h])
      else isFalse (fun hh => h (by simpa using hh))

/-!
Repository-URL normalization.  `normalizeRepoUrl` and `isGitRepoUrl` are
the helpers shared verbatim by `crates.ts`, `pypi.ts` and `packagist.ts`.
-/

/-- From `crates.ts` / `pypi.ts` / `packagist.ts`: substring test against the
three known git hosts (`url.includes("github.com") || ...`). -/
def isGitRepoUrl (url : JStr) : Bool :=
  containsL (js "github.com") url ||
  containsL (js "gitlab.com") url ||
  containsL (js "bitbucket.org") url

/-- From `crates.ts` / `pypi.ts` / `packagist.ts` `normalizeRepoUrl`:
`url.replace(/\/+$/, "").replace(/\.git$/, "").replace(/\/tree\/.*$/, "")
.replace(/\/blob\/.*$/, "")`. -/
def normalizeRepoUrl (url : JStr) : JStr :=
  truncFrom (js "/blob/")
    (truncFrom (js "/tree/")
      (dropSuffixIf (js ".git")
        (dropTrailingChar '/' url)))

/-- From `npm.ts` `extractRepoUrl`: the git-URL normalization chain applied
to the repository field before returning it. -/
def npmNormalizeRepoUrl (url : JStr) : JStr :=
  let u := replaceStart (js "git+") [] url
  let u := replaceStart (js "git://") (js "https://") u
  let u := replaceStart (js "git+ssh://git@") (js "https://") u
  let u := replaceStart (js "ssh://git@") (js "https://") u
  let u := dropSuffixIf (js ".git") u
  if startsWithL (js "github:") u then js "https://github.com/" ++ u.drop 7
  else u

/-!
A minimal model of the WHATWG `URL` object as used by
`normalizeNuGetRepoUrl`: scheme, authority, path, search and hash are split
without percent-encoding normalization; the characters `?` and `#` carry
their markers inside `search` / `hash`.
-/

/-- Components of a parsed URL (`new URL(s)`). -/
structure UrlParts where
  scheme : JStr
  authority : JStr
  path : JStr
  search : JStr
  hash : JStr
deriving DecidableEq

/-- Parse a URL string: fails (like the `new URL` constructor throwing) when
there is no `://` or the authority is empty. -/
def parseUrl (s : JStr) : Option UrlParts :=
  match splitFirstSub (js "://") s with
  | none => none
  | some (scheme, rest) =>
    let auth := rest.takeWhile (fun c => c ≠ '/' && c ≠ '?' && c ≠ '#')
    let rest2 := rest.dropWhile (fun c => c ≠ '/' && c ≠ '?' && c ≠ '#')
    if auth = [] then none
    else
      let path := rest2.takeWhile (fun c => c ≠ '?' && c ≠ '#')
      let rest3 := rest2.dropWhile (fun c => c ≠ '?' && c ≠ '#')
      let search := rest3.takeWhile (fun c => c ≠ '#')
      let hash := rest3.dropWhile (fun c => c ≠ '#')
      some ⟨scheme, auth, path, search, hash⟩

/-- Serialize a URL (`url.toString()`). -/
def urlToString (u : UrlParts) : JStr :=
  u.scheme ++ js "://" ++ u.authority ++ u.path ++ u.search ++ u.hash

/-- Hostname of an authority component (`url.hostname`): drop the userinfo
before the last `@`, then the port after the first following `:`. -/
def hostnameOf (auth : JStr) : JStr :=
  let hostPort :=
    match splitAtLastChar '@' auth with
    | some (_, after) => after
    | none => auth
  hostPort.takeWhile (· ≠ ':')

/-- The `ALLOWED_GIT_HOSTS` set of `nuget.ts`. -/
def allowedGitHost (h : JStr) : Bool :=
  h = js "github.com" || h = js "gitlab.com" || h = js "bitbucket.org"

/-- Path segments: `pathname.split("/").filter(Boolean)`. -/
def splitSegs (path : JStr) : List JStr :=
  (splitOnCharL '/' path).filter (· ≠ [])

/-- Case-insensitive variant of `replaceStart` (a JS `replace(/^pat/i, rep)`
with a lowercase pattern). -/
def replaceStartCI (pat rep l : JStr) : JStr :=
  if startsWithL pat (toLowerL l) then rep ++ l.drop pat.length else l

/-- Case-insensitive variant of `dropSuffixIf` (a JS `replace(/pat$/i, "")`
with a lowercase pattern). -/
def dropSuffixIfCI (pat l : JStr) : JStr :=
  if endsWithL pat (toLowerL l) then (l.reverse.drop pat.length).reverse else l

/-- The prefix/suffix rewriting chain at the head of
`normalizeNuGetRepoUrl` (the sequence of anchored `replace` calls). -/
def nugetCleanAffixes (normalized : JStr) : JStr :=
  let n := replaceStart (js "git+") [] normalized
  let n := replaceStartCI (js "git://") (js "https://") n
  let n := replaceStartCI (js "ssh://git@") (js "https://") n
  let n := replaceStartCI (js "git+ssh://git@") (js "https://") n
  let n := replaceStartCI (js "git@github.com:") (js "https://github.com/") n
  let n := dropSuffixIfCI (js ".git") n
  dropTrailingChar '/' n

/-- The `/tree/`‑ or `/blob/`‑subpath collapse of `normalizeNuGetRepoUrl`
(`parts.length >= 4 && (parts[2] === "tree" || parts[2] === "blob")`). -/
def nugetStripTreeBlob (url1 : UrlParts) : UrlParts :=
  let parts := splitSegs url1.path
  if parts.length ≥ 4 &&
      (parts.get? 2 = some (js "tree") || parts.get? 2 = some (js "blob")) then
    { url1 with path := js "/" ++ parts.headI ++ js "/" ++ (parts.get? 1).getD [] }
  else url1

/-- The final owner/repo check of `normalizeNuGetRepoUrl`: exactly two path
segments, a case-insensitive `.git` strip on the repo segment, and the
serialized URL with trailing slashes removed. -/
def nugetFinishUrl (url2 : UrlParts) : Option JStr :=
  let cleanedParts := splitSegs url2.path
  if cleanedParts.length = 2 then
    let p0 := cleanedParts.headI
    let p1 := dropSuffixIfCI (js ".git") ((cleanedParts.get? 1).getD [])
    let url3 : UrlParts := { url2 with path := js "/" ++ p0 ++ js "/" ++ p1 }
    some (dropTrailingChar '/' (urlToString url3))
  else none

/-- From `nuget.ts` `normalizeNuGetRepoUrl`, translated clause for clause;
the unescaped dot of the JS pattern `/^git@github.com:/i` is modelled as a
literal dot. -/
def normalizeNuGetRepoUrl (rawUrl : JStr) : Option JStr :=
  if trimL rawUrl = [] then none
  else
    match parseUrl (nugetCleanAffixes (trimL rawUrl)) with
    | none => none
    | some url0 =>
      if allowedGitHost (toLowerL (hostnameOf url0.authority)) then
        nugetFinishUrl (nugetStripTreeBlob { url0 with search := [], hash := [] })
      else none

/-- The JS `Array.prototype.join(sep)`. -/
def joinWithL (sep : JStr) : List JStr → JStr
  | [] => []
  | [x] => x
  | x :: xs => x ++ sep ++ joinWithL sep xs

/-!
The common output shape (`types.ts`): a resolved package.
-/

/-- `ResolvedPackage` from `types.ts`. -/
structure ResolvedPackage where
  registry : JStr
  name : JStr
  version : JStr
  repoUrl : JStr
  repoDirectory : Option JStr := none
  gitTag : JStr
deriving DecidableEq

/-!
The npm resolver (`npm.ts`).  The single registry fetch
(`fetchNpmPackageInfo`) is modelled by passing the deserialized
`RegistryResponse` as an input.
-/

/-- The `repository` object of an npm metadata document. -/
structure NpmRepoField where
  url : Option JStr := none
  directory : Option JStr := none
deriving DecidableEq

/-- One entry of the `versions` object of an npm metadata document. -/
structure NpmVersionEntry where
  repository : Option NpmRepoField := none
deriving DecidableEq

/-- The npm `RegistryResponse`: the `versions` object (as an association
list in insertion order), `dist-tags.latest`, and the top-level
`repository`. -/
structure NpmRegistryResponse where
  versions : List (JStr × NpmVersionEntry)
  latestTag : JStr
  repository : Option NpmRepoField := none
deriving DecidableEq

/-- `getLatestVersion` from `npm.ts`. -/
def getLatestVersion (info : NpmRegistryResponse) : JStr :=
  info.latestTag

/-- `extractRepoUrl` from `npm.ts`: version-specific repository first, then
top-level, then the normalization chain and the `github:` shorthand. -/
def npmExtractRepoUrl (info : NpmRegistryResponse) (version : Option JStr) :
    Option (JStr × Option JStr) :=
  let versionInfo := version.bind (fun v => lookupA info.versions v)
  let repo :=
    match versionInfo.bind (·.repository) with
    | some r => some r
    | none => info.repository
  match repo with
  | none => none
  | some r =>
    if !jsTruthy r.url then none
    else some (npmNormalizeRepoUrl ((r.url).getD []), r.directory)

/-- The error message of `npm.ts` when a version is missing. -/
def npmVersionNotFoundMsg (packageName resolvedVersion : JStr)
    (info : NpmRegistryResponse) : JStr :=
  js "Version \"" ++ resolvedVersion ++ js "\" not found for \"" ++ packageName ++
    js "\". Recent versions: " ++
    joinWithL (js ", ") (((info.versions.map Prod.fst).reverse.take 5).reverse)

/-- The error message of `npm.ts` when no repository URL is found. -/
def npmNoRepoMsg (packageName resolvedVersion : JStr) : JStr :=
  js "No repository URL found for \"" ++ packageName ++ js "@" ++ resolvedVersion ++
    js "\". This package may not have its source published."

/-- `resolveNpmPackage` from `npm.ts`, with the registry response as an
input in place of the network fetch. -/
def resolveNpmPackage (packageName : JStr) (version : Option JStr)
    (info : NpmRegistryResponse) : Except JStr ResolvedPackage :=
  let resolvedVersion := jsOr version (getLatestVersion info)
  if (lookupA info.versions resolvedVersion).isNone then
    Except.error (npmVersionNotFoundMsg packageName resolvedVersion info)
  else
    match npmExtractRepoUrl info (some resolvedVersion) with
    | none => Except.error (npmNoRepoMsg packageName resolvedVersion)
    | some (url, dir) =>
      Except.ok
        { registry := js "npm", name := packageName, version := resolvedVersion,
          repoUrl := url, repoDirectory := dir, gitTag := 'v' :: resolvedVersion }

/-!
The PyPI resolver (`pypi.ts`).  Both fetches (the version-targeted one and
the full listing used only for error messages) are inputs.
-/

/-- One release file entry of a PyPI `releases` object. -/
structure PyPIRelease where
  upload_time : JStr
  yanked : Bool
deriving DecidableEq

/-- The `info` object of a PyPI response. -/
structure PyPIInfoField where
  version : JStr
  home_page : Option JStr := none
  project_urls : List (JStr × JStr) := []
deriving DecidableEq

/-- A PyPI JSON response. -/
structure PyPIResponse where
  info : PyPIInfoField
  releases : List (JStr × List PyPIRelease) := []
deriving DecidableEq

/-- The `repoKeys` priority list of `pypi.ts` `extractRepoUrl`. -/
def pypiRepoKeys : List JStr :=
  [js "Source", js "Source Code", js "Repository", js "GitHub", js "Code",
   js "Homepage"]

/-- `extractRepoUrl` from `pypi.ts`. -/
def pypiExtractRepoUrl (info : PyPIInfoField) : Option JStr :=
  match pypiRepoKeys.findSome?
      (fun key =>
        match lookupA info.project_urls key with
        | some url => if url ≠ [] && isGitRepoUrl url then some url else none
        | none => none) with
  | some url => some (normalizeRepoUrl url)
  | none =>
    if jsTruthy info.home_page && isGitRepoUrl (info.home_page.getD []) then
      some (normalizeRepoUrl (info.home_page.getD []))
    else
      match (info.project_urls.map Prod.snd).find? isGitRepoUrl with
      | some url => some (normalizeRepoUrl url)
      | none => none

/-- `getVersions` from `pypi.ts`: unyanked versions sorted newest first by
upload-time string comparison. -/
def pypiGetVersions (releases : List (JStr × List PyPIRelease)) : List JStr :=
  (sortJS
      (fun a b =>
        strCmp ((b.2.head?.map (·.upload_time)).getD [])
          ((a.2.head?.map (·.upload_time)).getD []))
      (releases.filter
        (fun p =>
          match p.2.head? with
          | some f => !f.yanked
          | none => false))).map
    Prod.fst

/-- The error message of `pypi.ts` when no repository URL is found. -/
def pypiNoRepoMsg (packageName resolvedVersion : JStr)
    (availableVersions : List JStr) : JStr :=
  js "No repository URL found for \"" ++ packageName ++ js "@" ++ resolvedVersion ++
    js "\". This package may not have its source published." ++
    (if availableVersions.length > 0 then
      js " Recent versions: " ++ joinWithL (js ", ") availableVersions
    else [])

/-- `resolvePyPIPackage` from `pypi.ts`: `resp` is the response of the
version-targeted fetch and `fullResp` the response of the listing fetch
performed when no version was requested. -/
def resolvePyPIPackage (packageName : JStr) (version : Option JStr)
    (resp : PyPIResponse) (fullResp : PyPIResponse) :
    Except JStr ResolvedPackage :=
  let resolvedVersion := resp.info.version
  let availableVersions :=
    match version with
    | some _ => []
    | none => (pypiGetVersions fullResp.releases).take 5
  match pypiExtractRepoUrl resp.info with
  | none => Except.error (pypiNoRepoMsg packageName resolvedVersion availableVersions)
  | some repoUrl =>
    Except.ok
      { registry := js "pypi", name := packageName, version := resolvedVersion,
        repoUrl := repoUrl, gitTag := 'v' :: resolvedVersion }

/-!
The crates.io resolver (`crates.ts`).  The crate fetch is an input; the
per-version existence fetch (`fetchCrateVersionInfo`, where a 404 raises) is
modelled by the predicate `versionExists`.
-/

/-- One version entry of a crates.io response; `created_at` is modelled as
the epoch value its date string denotes. -/
structure CrateVersion where
  num : JStr
  yanked : Bool
  created_at : Int
deriving DecidableEq

/-- The `crate` object of a crates.io response. -/
structure CrateInfoField where
  name : JStr
  max_version : JStr
  repository : Option JStr := none
  homepage : Option JStr := none
deriving DecidableEq

/-- A crates.io `CrateResponse`. -/
structure CrateResponse where
  crate : CrateInfoField
  versions : List CrateVersion
deriving DecidableEq

/-- `extractRepoUrl` from `crates.ts`. -/
def cratesExtractRepoUrl (crate : CrateInfoField) : Option JStr :=
  if jsTruthy crate.repository && isGitRepoUrl (crate.repository.getD []) then
    some (normalizeRepoUrl (crate.repository.getD []))
  else if jsTruthy crate.homepage && isGitRepoUrl (crate.homepage.getD []) then
    some (normalizeRepoUrl (crate.homepage.getD []))
  else none

/-- `getAvailableVersions` from `crates.ts`: unyanked versions sorted by
release date, newest first. -/
def cratesAvailableVersions (versions : List CrateVersion) : List JStr :=
  (sortJS (fun a b => b.created_at - a.created_at)
    (versions.filter (fun v => !v.yanked))).map (·.num)

/-- The error message of `crates.ts` when the requested version is absent
(a 404 from the per-version endpoint). -/
def crateVersionNotFoundMsg (crateName version : JStr) : JStr :=
  js "Version \"" ++ version ++ js "\" not found for crate \"" ++ crateName ++ js "\""

/-- The error message of `crates.ts` when no repository URL is found. -/
def cratesNoRepoMsg (crateName resolvedVersion : JStr)
    (info : CrateResponse) : JStr :=
  js "No repository URL found for \"" ++ crateName ++ js "@" ++ resolvedVersion ++
    js "\". This crate may not have its source published. Recent versions: " ++
    joinWithL (js ", ") ((cratesAvailableVersions info.versions).take 5)

/-- `resolveCrate` from `crates.ts`. -/
def resolveCrate (crateName : JStr) (version : Option JStr)
    (info : CrateResponse) (versionExists : JStr → Bool) :
    Except JStr ResolvedPackage :=
  let resolvedVersion := jsOr version info.crate.max_version
  if jsTruthy version && !versionExists (version.getD []) then
    Except.error (crateVersionNotFoundMsg crateName (version.getD []))
  else
    match cratesExtractRepoUrl info.crate with
    | none => Except.error (cratesNoRepoMsg crateName resolvedVersion info)
    | some repoUrl =>
      Except.ok
        { registry := js "crates", name := crateName, version := resolvedVersion,
          repoUrl := repoUrl, gitTag := 'v' :: resolvedVersion }

/-!
The Packagist resolver (`packagist.ts`).  The single fetch is an input; the
`time` field is modelled as the epoch value its date string denotes.
-/

/-- The `source` object of a Packagist version entry. -/
structure PackagistSource where
  type : JStr
  url : JStr
  reference : JStr
deriving DecidableEq

/-- One version entry of a Packagist response. -/
structure PackagistVersion where
  version : JStr
  version_normalized : JStr
  source : Option PackagistSource := none
  time : Option Int := none
deriving DecidableEq

/-- `extractRepoUrl` from `packagist.ts`. -/
def packagistExtractRepoUrl (v : PackagistVersion) : Option JStr :=
  match v.source with
  | none => none
  | some src =>
    if src.url = [] then none
    else
      let u := replaceStart (js "git+") [] src.url
      let u := replaceStart (js "git://") (js "https://") u
      let u := replaceStart (js "git@github.com:") (js "https://github.com/") u
      let u := replaceStart (js "git@gitlab.com:") (js "https://gitlab.com/") u
      let u := dropSuffixIf (js ".git") u
      if isGitRepoUrl u then some (normalizeRepoUrl u) else none

/-- The dev-version predicate that `getAvailableVersions` of `packagist.ts`
filters out by default. -/
def isDevVersion (v : PackagistVersion) : Bool :=
  startsWithL (js "dev-") v.version ||
  endsWithL (js "-dev") v.version ||
  containsL (js "-dev@") v.version

/-- `getAvailableVersions` from `packagist.ts`: optionally drop dev
versions, then sort newest first by time when both entries have one,
otherwise by normalized-version string comparison. -/
def packagistAvailableVersions (versions : List PackagistVersion)
    (includeDev : Bool) : List PackagistVersion :=
  sortJS
    (fun a b =>
      match a.time, b.time with
      | some ta, some tb => tb - ta
      | _, _ => strCmp b.version_normalized a.version_normalized)
    (versions.filter (fun v => includeDev || !isDevVersion v))

/-- The version-selection step of `resolvePackagistPackage`: the
find-or-fallback chain for an explicit version, else the first stable (or
first listed) version. -/
def packagistSelectVersion (versions : List PackagistVersion)
    (version : Option JStr) : Option PackagistVersion :=
  if jsTruthy version then
    let v := version.getD []
    let normalizedRequest := replaceStart (js "v") [] v
    match versions.find?
        (fun w =>
          w.version = v || w.version = 'v' :: v ||
          w.version_normalized = normalizedRequest ||
          startsWithL (normalizedRequest ++ js ".") w.version_normalized) with
    | some w => some w
    | none =>
      match versions.find? (fun w => containsL v w.version) with
      | some w => some w
      | none => versions.head?
  else
    match (packagistAvailableVersions versions false).head? with
    | some w => some w
    | none => versions.head?

/-- The error message of `packagist.ts` when no versions exist. -/
def packagistNoVersionsMsg (packageName : JStr) : JStr :=
  js "No versions found for \"" ++ packageName ++ js "\""

/-- The error message of `packagist.ts` when a requested version is
missing (dead code: the fallback always selects some entry). -/
def packagistVersionNotFoundMsg (packageName version : JStr)
    (versions : List PackagistVersion) : JStr :=
  js "Version \"" ++ version ++ js "\" not found for \"" ++ packageName ++
    js "\". Recent versions: " ++
    joinWithL (js ", ")
      (((packagistAvailableVersions versions false).take 5).map (·.version))

/-- The error message of `packagist.ts` when no repository URL is found. -/
def packagistNoRepoMsg (packageName : JStr) (rv : PackagistVersion)
    (versions : List PackagistVersion) : JStr :=
  js "No repository URL found for \"" ++ packageName ++ js "@" ++ rv.version ++
    js "\". This package may not have its source published. Recent versions: " ++
    joinWithL (js ", ")
      (((packagistAvailableVersions versions false).take 5).map (·.version))

/-- `resolvePackagistPackage` from `packagist.ts`. -/
def resolvePackagistPackage (packageName : JStr) (version : Option JStr)
    (versions : List PackagistVersion) : Except JStr ResolvedPackage :=
  if versions = [] then Except.error (packagistNoVersionsMsg packageName)
  else
    match packagistSelectVersion versions version with
    | none =>
      Except.error (packagistVersionNotFoundMsg packageName (version.getD []) versions)
    | some rv =>
      match packagistExtractRepoUrl rv with
      | none => Except.error (packagistNoRepoMsg packageName rv versions)
      | some repoUrl =>
        Except.ok
          { registry := js "packagist", name := packageName, version := rv.version,
            repoUrl := repoUrl,
            gitTag :=
              if startsWithL (js "v") rv.version then rv.version
              else 'v' :: rv.version }

/-!
The NuGet resolver (`nuget.ts`).  The registration-index walk and the
nuspec fetch are network concerns; the collected `RegistrationLeaf` list and
the nuspec extraction result enter as inputs.
-/

/-- `toComparableVersion` from `nuget.ts`. -/
def toComparableVersion (version : JStr) : JStr :=
  toLowerL (trimL version)

/-- `isPrereleaseVersion` from `nuget.ts` (`version.includes("-")`). -/
def isPrereleaseVersion (version : JStr) : Bool :=
  containsL (js "-") version

/-- One comparison step of `comparePrereleaseIdentifiers`: numeric
identifiers compare by value and sort before alphanumeric ones, which
compare as strings. -/
def cmpIdPart (a b : JStr) : Int :=
  let aNum := isAllDigits a
  let bNum := isAllDigits b
  if aNum && bNum then (natOfDigits a : Int) - (natOfDigits b : Int)
  else if aNum && !bNum then -1
  else if !aNum && bNum then 1
  else strCmp a b

/-- The identifier-list loop of `comparePrereleaseIdentifiers`: a missing
identifier sorts first, and the first non-tied identifier decides. -/
def cmpIdList (a b : List JStr) : Int :=
  lexCmp cmpIdPart a b

/-- `comparePrereleaseIdentifiers` from `nuget.ts`. -/
def comparePrereleaseIdentifiers (a b : JStr) : Int :=
  cmpIdList (splitOnCharL '.' a) (splitOnCharL '.' b)

/-- Comparison of an exhausted core list against the remainder of the
other one (missing positions count as `0`). -/
def cmpZeroPad : List Nat → Int
  | [] => 0
  | b :: bs => if 0 ≠ b then (0 : Int) - b else cmpZeroPad bs

/-- The dotted-core loop of `compareNuGetVersions`: positions beyond a
list's length count as `0`. -/
def cmpCoreParts : List Nat → List Nat → Int
  | [], l2 => cmpZeroPad l2
  | a :: as, [] => if a ≠ 0 then (a : Int) - 0 else cmpCoreParts as []
  | a :: as, b :: bs => if a ≠ b then (a : Int) - b else cmpCoreParts as bs

/-- Core part list of a version: `aCore.split(".").map(p => parseInt(p) || 0)`. -/
def coreParts (core : JStr) : List Nat :=
  (splitOnCharL '.' core).map parseIntOr0

/-- The `aMain` of `compareNuGetVersions`: the part before the first `+`
(`a.split("+", 2)[0]`). -/
def mainOf (a : JStr) : JStr := (jsSplit2 '+' a).1

/-- The `aMeta ?? ""` of `compareNuGetVersions`. -/
def metaOf (a : JStr) : JStr := ((jsSplit2 '+' a).2).getD []

/-- The `aCore` of `compareNuGetVersions`: the part of the main segment
before the first `-`. -/
def coreOf (a : JStr) : JStr := (jsSplit2 '-' (mainOf a)).1

/-- The `aPre` of `compareNuGetVersions`: the prerelease segment between
the first and second `-` of the main segment, when present. -/
def preRaw (a : JStr) : Option JStr := (jsSplit2 '-' (mainOf a)).2

/-- `compareNuGetVersions` from `nuget.ts`: split off build metadata at the
first `+`, the prerelease segment at the first `-`, compare the dotted
cores numerically, then prerelease presence, then prerelease identifiers,
then metadata strings. -/
def compareNuGetVersions (a b : JStr) : Int :=
  let coreCmp := cmpCoreParts (coreParts (coreOf a)) (coreParts (coreOf b))
  if coreCmp ≠ 0 then coreCmp
  else
    let aPreT := jsTruthy (preRaw a)
    let bPreT := jsTruthy (preRaw b)
    let metaCmp := strCmp (metaOf a) (metaOf b)
    if !aPreT && bPreT then 1
    else if aPreT && !bPreT then -1
    else if aPreT && bPreT then
      let preCmp := comparePrereleaseIdentifiers ((preRaw a).getD []) ((preRaw b).getD [])
      if preCmp ≠ 0 then preCmp else metaCmp
    else metaCmp

/-- The `reduce` of `resolveVersionFromLeaves`: keep the running latest
unless the current version compares strictly greater. -/
def reduceLatest (h : JStr) (t : List JStr) : JStr :=
  t.foldl (fun latest current =>
    if compareNuGetVersions current latest > 0 then current else latest) h

/-- The `catalogEntry.repository` object of a registration leaf. -/
structure NuGetRepoField where
  type : Option JStr := none
  url : Option JStr := none
deriving DecidableEq

/-- The `catalogEntry` object of a registration leaf. -/
structure NuGetCatalogEntry where
  version : Option JStr := none
  repository : Option NuGetRepoField := none
  projectUrl : Option JStr := none
deriving DecidableEq

/-- A `RegistrationLeaf` from the NuGet registration index. -/
structure RegistrationLeaf where
  catalogEntry : Option NuGetCatalogEntry := none
deriving DecidableEq

/-- The two candidate sources of `nuget.ts`. -/
inductive CandSource where
  | repository
  | projectUrl
deriving DecidableEq

/-- A `NuGetMetadataCandidate`. -/
structure NuGetMetadataCandidate where
  source : CandSource
  url : JStr
deriving DecidableEq

/-- The version field of a leaf with the `?? ""` default of `nuget.ts`. -/
def leafVersionOrEmpty (leaf : RegistrationLeaf) : JStr :=
  ((leaf.catalogEntry.bind (·.version)).getD [])

/-- The published version list of `resolveVersionFromLeaves`:
`leaves.map(l => l.catalogEntry?.version).filter(Boolean)`. -/
def versionsOfLeaves (leaves : List RegistrationLeaf) : List JStr :=
  leaves.filterMap
    (fun leaf =>
      match leaf.catalogEntry.bind (·.version) with
      | some v => if v = [] then none else some v
      | none => none)

/-- The error message of `resolveVersionFromLeaves` for a missing explicit
version. -/
def nugetVersionNotFoundMsg (requestedVersion : JStr) : JStr :=
  js "Version \"" ++ requestedVersion ++ js "\" not found on NuGet"

/-- The error message of `resolveVersionFromLeaves` when only prerelease
versions exist. -/
def nugetNoStableMsg (packageName : JStr) : JStr :=
  js "No stable version found for \"" ++ packageName ++
    js "\" on NuGet. Specify a prerelease version explicitly (for example: nuget:" ++
    packageName ++ js "@<version>)"

/-- `resolveVersionFromLeaves` from `nuget.ts`. -/
def resolveVersionFromLeaves (leaves : List RegistrationLeaf)
    (packageName : JStr) (requestedVersion : Option JStr)
    (allowPrerelease : Bool) : Except JStr JStr :=
  if jsTruthy requestedVersion then
    let rv := requestedVersion.getD []
    let wanted := toComparableVersion rv
    match leaves.find? (fun leaf => toComparableVersion (leafVersionOrEmpty leaf) = wanted) with
    | some leaf =>
      match leaf.catalogEntry.bind (·.version) with
      | some v =>
        if v = [] then Except.error (nugetVersionNotFoundMsg rv) else Except.ok v
      | none => Except.error (nugetVersionNotFoundMsg rv)
    | none => Except.error (nugetVersionNotFoundMsg rv)
  else
    match versionsOfLeaves leaves with
    | [] => Except.error (js "NuGet package has no published versions")
    | v :: vs =>
      if allowPrerelease then Except.ok (reduceLatest v vs)
      else
        match (v :: vs).filter (fun w => !isPrereleaseVersion w) with
        | [] => Except.error (nugetNoStableMsg packageName)
        | s :: ss => Except.ok (reduceLatest s ss)

/-- `findLeafByVersion` from `nuget.ts`. -/
def findLeafByVersion (leaves : List RegistrationLeaf) (version : JStr) :
    Option RegistrationLeaf :=
  leaves.find? (fun leaf =>
    toComparableVersion (leafVersionOrEmpty leaf) = toComparableVersion version)

/-- `extractRepositoryFromLeaf` from `nuget.ts`. -/
def extractRepositoryFromLeaf (leaf : RegistrationLeaf) :
    Option NuGetMetadataCandidate :=
  match leaf.catalogEntry.bind (·.repository) with
  | some repo =>
    if jsTruthy repo.url &&
        (!jsTruthy repo.type || toLowerL ((repo.type).getD []) = js "git") then
      some ⟨CandSource.repository, (repo.url).getD []⟩
    else if jsTruthy (leaf.catalogEntry.bind (·.projectUrl)) then
      some ⟨CandSource.projectUrl, ((leaf.catalogEntry.bind (·.projectUrl)).getD [])⟩
    else none
  | none =>
    if jsTruthy (leaf.catalogEntry.bind (·.projectUrl)) then
      some ⟨CandSource.projectUrl, ((leaf.catalogEntry.bind (·.projectUrl)).getD [])⟩
    else none

/-- `getRepositoryCandidate` from `nuget.ts`. -/
def getRepositoryCandidate (leafCandidate nuspecCandidate :
    Option NuGetMetadataCandidate) : Option NuGetMetadataCandidate :=
  match leafCandidate, nuspecCandidate with
  | some l, _ =>
    if l.source = CandSource.repository then some l
    else
      match nuspecCandidate with
      | some n => if n.source = CandSource.repository then some n else some l
      | none => some l
  | none, some n => some n
  | none, none => none

/-- `getPackageLevelFallbackCandidate` from `nuget.ts`: walk the leaves
newest first for a repository-source candidate, then for a
project-URL-source candidate. -/
def getPackageLevelFallbackCandidate (leaves : List RegistrationLeaf) :
    Option NuGetMetadataCandidate :=
  match leaves.reverse.findSome?
      (fun l =>
        match extractRepositoryFromLeaf l with
        | some c => if c.source = CandSource.repository then some c else none
        | none => none) with
  | some c => some c
  | none =>
    leaves.reverse.findSome?
      (fun l =>
        match extractRepositoryFromLeaf l with
        | some c => if c.source = CandSource.projectUrl then some c else none
        | none => none)

/-- `parseNuGetSpec` from `nuget.ts`. -/
def parseNuGetSpec (spec : JStr) : JStr × Option JStr :=
  let trimmed := trimL spec
  match splitAtLastChar '@' trimmed with
  | some (before, after) =>
    if before ≠ [] then (trimL before, some (trimL after)) else (trimmed, none)
  | none => (trimmed, none)

/-- The not-found error message of `resolveNuGetPackage`. -/
def nugetPackageNotFoundMsg (name : JStr) : JStr :=
  js "Package \"" ++ name ++ js "\" not found on NuGet"

/-- The no-metadata error message of `resolveNuGetPackage`. -/
def nugetNoMetadataMsg (name resolvedVersion : JStr) : JStr :=
  js "No repository metadata found for \"" ++ name ++ js "@" ++ resolvedVersion ++
    js "\" on NuGet (checked repository and projectUrl fields)"

/-- The invalid-URL error message of `resolveNuGetPackage`. -/
def nugetInvalidUrlMsg (cand : NuGetMetadataCandidate)
    (name resolvedVersion : JStr) : JStr :=
  js "Invalid non-cloneable " ++
    (match cand.source with
     | CandSource.repository => js "repository"
     | CandSource.projectUrl => js "projectUrl") ++
    js " URL for \"" ++ name ++ js "@" ++ resolvedVersion ++ js "\": " ++ cand.url

/-- `resolveNuGetPackage` from `nuget.ts`; `nuspec` is the result of
`fetchNuspecMetadata` (network fetch plus nuspec-XML extraction), supplied
as an input. -/
def resolveNuGetPackage (packageName : JStr) (version : Option JStr)
    (allowPrerelease : Bool) (leaves : List RegistrationLeaf)
    (nuspec : Option NuGetMetadataCandidate) : Except JStr ResolvedPackage :=
  let name := (parseNuGetSpec packageName).1
  if name = [] then Except.error (js "NuGet package name is required")
  else if leaves = [] then Except.error (nugetPackageNotFoundMsg name)
  else
    match resolveVersionFromLeaves leaves name version allowPrerelease with
    | Except.error e => Except.error e
    | Except.ok resolvedVersion =>
      match findLeafByVersion leaves resolvedVersion with
      | none =>
        Except.error
          (js "Version \"" ++ resolvedVersion ++ js "\" not found for \"" ++ name ++
            js "\" on NuGet")
      | some matchingLeaf =>
        let leafCandidate := extractRepositoryFromLeaf matchingLeaf
        let nuspecCandidate :=
          if (leafCandidate.map (·.source)) = some CandSource.repository then none
          else nuspec
        let candidate := getRepositoryCandidate leafCandidate nuspecCandidate
        let selected :=
          match candidate with
          | some c => some c
          | none => getPackageLevelFallbackCandidate leaves
        match selected with
        | none => Except.error (nugetNoMetadataMsg name resolvedVersion)
        | some cand =>
          match normalizeNuGetRepoUrl cand.url with
          | none => Except.error (nugetInvalidUrlMsg cand name resolvedVersion)
          | some repoUrl =>
            Except.ok
              { registry := js "nuget", name := name, version := resolvedVersion,
                repoUrl := repoUrl, gitTag := 'v' :: resolvedVersion }

/-!
The Maven resolver (`maven.ts`).  The search endpoint is modelled by the
list of published versions it reports (`verifyVersion` succeeds exactly
when the version is in the list) together with the reported latest version
(`none` when the artifact is unknown); the POM fetch result is an input.
-/

/-- Maven coordinates as returned by `parseMavenSpec`. -/
structure MavenCoords where
  groupId : JStr
  artifactId : JStr
  version : Option JStr := none
deriving DecidableEq

/-- The malformed-specifier error message of `parseMavenSpec`. -/
def mavenBadSpecMsg (spec : JStr) : JStr :=
  js "Invalid Maven specifier \"" ++ spec ++
    js "\". Expected format: groupId:artifactId or groupId:artifactId:version"

/-- The empty-component error message of `parseMavenSpec`. -/
def mavenEmptyComponentMsg (spec : JStr) : JStr :=
  js "Invalid Maven specifier \"" ++ spec ++
    js "\". groupId and artifactId must not be empty."

/-- `parseMavenSpec` from `maven.ts`: split a trailing `@version` first,
then the colon-separated coordinates, preferring the `@` version over a
third colon segment. -/
def parseMavenSpec (spec : JStr) : Except JStr MavenCoords :=
  let trimmed := trimL spec
  let split :=
    match splitAtLastChar '@' trimmed with
    | some (before, after) =>
      if before ≠ [] then
        (before, if trimL after = [] then none else some (trimL after))
      else (trimmed, (none : Option JStr))
    | none => (trimmed, none)
  let parts := splitOnCharL ':' split.1
  if parts.length < 2 then Except.error (mavenBadSpecMsg spec)
  else
    let groupId := trimL ((parts.get? 0).getD [])
    let artifactId := trimL ((parts.get? 1).getD [])
    let version :=
      match split.2 with
      | some v => some v
      | none =>
        match parts.get? 2 with
        | some p => if jsTruthy (some p) then
            (if trimL p = [] then none else some (trimL p)) else none
        | none => none
    if groupId = [] || artifactId = [] then
      Except.error (mavenEmptyComponentMsg spec)
    else Except.ok ⟨groupId, artifactId, version⟩

/-- The `<scm>` information extracted from a POM. -/
structure ScmInfo where
  repoUrl : JStr
  scmTag : Option JStr := none
deriving DecidableEq

/-- The `/^scm:[^:]+:/` strip at the head of `normalizeScmUrl`. -/
def stripScmHead (url : JStr) : JStr :=
  if startsWithL (js "scm:") url then
    let rest := url.drop 4
    let mid := rest.takeWhile (· ≠ ':')
    let tail := rest.dropWhile (· ≠ ':')
    match tail with
    | ':' :: tail2 => if mid ≠ [] then tail2 else url
    | _ => url
  else url

/-- The `/^https?:\/\/(github|gitlab)\.com\/([^/]+)\/([^/]+)/` match of
`normalizeScmUrl`: the host word together with the first two path
segments. -/
def ghCoreMatch (url : JStr) : Option (JStr × JStr × JStr) :=
  let afterScheme :=
    if startsWithL (js "https://") url then some (url.drop 8)
    else if startsWithL (js "http://") url then some (url.drop 7)
    else none
  match afterScheme with
  | none => none
  | some rest =>
    let hosted :=
      if startsWithL (js "github.com/") rest then some (js "github", rest.drop 11)
      else if startsWithL (js "gitlab.com/") rest then some (js "gitlab", rest.drop 11)
      else none
    match hosted with
    | none => none
    | some (hostWord, rest2) =>
      let seg1 := rest2.takeWhile (· ≠ '/')
      let rest3 := rest2.dropWhile (· ≠ '/')
      if seg1 = [] then none
      else
        match rest3 with
        | '/' :: rest4 =>
          let seg2 := rest4.takeWhile (· ≠ '/')
          if seg2 = [] then none else some (hostWord, seg1, seg2)
        | _ => none

/-- The `/\/(tree|blob)\/.*$/` truncation of `normalizeScmUrl` (one
pattern, so the earlier of the two markers wins). -/
def truncTreeBlob : JStr → JStr
  | [] => []
  | c :: rest =>
    if startsWithL (js "/tree/") (c :: rest) ||
        startsWithL (js "/blob/") (c :: rest) then []
    else c :: truncTreeBlob rest

/-- `normalizeScmUrl` from `maven.ts`. -/
def normalizeScmUrl (raw : JStr) : Option JStr :=
  let u := stripScmHead raw
  let u := replaceStart (js "git://") (js "https://") u
  let u :=
    if startsWithL (js "ssh://git@github.com") u then
      js "https://github.com" ++ u.drop 20
    else if startsWithL (js "ssh://git@gitlab.com") u then
      js "https://gitlab.com" ++ u.drop 20
    else u
  let u :=
    if startsWithL (js "git@github.com:") u then
      js "https://github.com/" ++ u.drop 15
    else if startsWithL (js "git@gitlab.com:") u then
      js "https://gitlab.com/" ++ u.drop 15
    else u
  let u := dropTrailingChar '/' (dropSuffixIf (js ".git") u)
  let u := truncTreeBlob u
  match ghCoreMatch u with
  | some (hostWord, seg1, seg2) =>
    some (js "https://" ++ hostWord ++ js ".com/" ++ seg1 ++ js "/" ++
      dropSuffixIf (js ".git") seg2)
  | none => if startsWithL (js "http") u then some u else none

/-- `fetchScmInfo` from `maven.ts` with the fetched POM text as input:
extract the first `<scm>` block, the explicit `<tag>` (with `HEAD` meaning
no tag), and the first of connection / developerConnection / url that
normalizes to a known git host. -/
def fetchScmInfo (pom : Option JStr) : Option ScmInfo :=
  match pom with
  | none => none
  | some xml =>
    match firstBetween (js "<scm>") (js "</scm>") xml with
    | none => none
    | some scmBlock =>
      let scmTag :=
        match firstBetween (js "<tag>") (js "</tag>") scmBlock with
        | some t => if trimL t ≠ js "HEAD" then some (trimL t) else none
        | none => none
      let tryElem (opening closing : JStr) : Option JStr :=
        match firstBetween opening closing scmBlock with
        | some content =>
          match normalizeScmUrl (trimL content) with
          | some u => if isGitRepoUrl u then some u else none
          | none => none
        | none => none
      match tryElem (js "<connection>") (js "</connection>") with
      | some u => some ⟨u, scmTag⟩
      | none =>
        match tryElem (js "<developerConnection>") (js "</developerConnection>") with
        | some u => some ⟨u, scmTag⟩
        | none =>
          match tryElem (js "<url>") (js "</url>") with
          | some u => some ⟨u, scmTag⟩
          | none => none

/-- The version-not-found error message of `maven.ts`. -/
def mavenVersionNotFoundMsg (groupId artifactId version : JStr)
    (published : List JStr) : JStr :=
  js "Version \"" ++ version ++ js "\" not found for \"" ++ groupId ++ js ":" ++
    artifactId ++ js "\". Recent versions: " ++
    joinWithL (js ", ") (published.take 5)

/-- The artifact-not-found error message of `maven.ts`. -/
def mavenArtifactNotFoundMsg (groupId artifactId : JStr) : JStr :=
  js "Artifact \"" ++ groupId ++ js ":" ++ artifactId ++
    js "\" not found on Maven Central"

/-- The no-SCM error message of `maven.ts`. -/
def mavenNoScmMsg (groupId artifactId resolvedVersion : JStr)
    (published : List JStr) : JStr :=
  js "No repository URL found in POM for \"" ++ groupId ++ js ":" ++ artifactId ++
    js ":" ++ resolvedVersion ++
    js "\". The artifact may not publish SCM information." ++
    (if published.length > 0 then
      js " Recent versions: " ++ joinWithL (js ", ") (published.take 5)
    else [])

/-- `resolveMavenPackage` from `maven.ts`: `published` is the version list
the search endpoint reports, `latest` its reported latest version, `pom`
the fetched POM text. -/
def resolveMavenPackage (groupId artifactId : JStr) (version : Option JStr)
    (published : List JStr) (latest : Option JStr) (pom : Option JStr) :
    Except JStr ResolvedPackage :=
  let step :=
    if jsTruthy version then
      let v := version.getD []
      if published.contains v then Except.ok v
      else Except.error (mavenVersionNotFoundMsg groupId artifactId v published)
    else
      match latest with
      | some l => Except.ok l
      | none => Except.error (mavenArtifactNotFoundMsg groupId artifactId)
  match step with
  | Except.error e => Except.error e
  | Except.ok resolvedVersion =>
    match fetchScmInfo pom with
    | none =>
      Except.error (mavenNoScmMsg groupId artifactId resolvedVersion published)
    | some scmInfo =>
      Except.ok
        { registry := js "maven", name := groupId ++ js ":" ++ artifactId,
          version := resolvedVersion, repoUrl := scmInfo.repoUrl,
          gitTag :=
            match scmInfo.scmTag with
            | some t => t
            | none => artifactId ++ js "-" ++ resolvedVersion }

/-!
Basic lemmas about the string utilities.
-/

theorem startsWithL_append_of (p : JStr) :
    ∀ u v : JStr, startsWithL p u = true → startsWithL p (u ++ v) = true := by
  induction p with
  | nil => intro u v _; rfl
  | cons c cs ih =>
    intro u v h
    cases u with
    | nil => simp [startsWithL] at h
    | cons d ds =>
      simp only [startsWithL, Bool.and_eq_true, decide_eq_true_eq] at h
      simp only [List.cons_append, startsWithL, Bool.and_eq_true, decide_eq_true_eq]
      exact ⟨h.1, ih ds v h.2⟩

theorem startsWithL_self_append (p t : JStr) :
    startsWithL p (p ++ t) = true := by
  induction p with
  | nil => rfl
  | cons c cs ih =>
    simp only [List.cons_append, startsWithL, Bool.and_eq_true, decide_eq_true_eq]
    exact ⟨by trivial, ih⟩

theorem startsWithL_of_extend {p u : JStr} (h : startsWithL p u = true) :
    ∀ {w t : JStr}, u ++ t = w → startsWithL p w = true := by
  intro w t hw
  subst hw
  exact startsWithL_append_of p u t h

theorem containsL_append_left (pat : JStr) :
    ∀ x t : JStr, containsL pat x = true → containsL pat (x ++ t) = true := by
  intro x
  induction x with
  | nil =>
    intro t h
    cases t with
    | nil => exact h
    | cons d ds =>
      simp only [containsL] at h
      simp only [List.nil_append, containsL, Bool.or_eq_true]
      exact Or.inl (startsWithL_append_of pat [] (d :: ds) h)
  | cons c cs ih =>
    intro t h
    simp only [containsL, Bool.or_eq_true] at h
    simp only [List.cons_append, containsL, Bool.or_eq_true]
    cases h with
    | inl h => exact Or.inl (by simpa using startsWithL_append_of pat (c :: cs) t h)
    | inr h => exact Or.inr (ih t h)

theorem containsL_of_append_mid (pat x y : JStr) :
    containsL pat (x ++ pat ++ y) = true := by
  induction x with
  | nil =>
    cases pat with
    | nil => cases y <;> simp [containsL, startsWithL]
    | cons c cs =>
      simp only [List.nil_append, containsL, Bool.or_eq_true]
      exact Or.inl (startsWithL_self_append (c :: cs) y)
  | cons c cs ih =>
    simp only [List.cons_append, containsL, Bool.or_eq_true]
    exact Or.inr ih

theorem containsL_prefix_false {pat x : JStr} (h : containsL pat x = false) :
    ∀ {l t : JStr}, x = l ++ t → containsL pat l = false := by
  intro l t hx
  by_contra hc
  have : containsL pat (l ++ t) = true :=
    containsL_append_left pat l t (by revert hc; cases containsL pat l <;> simp)
  rw [← hx] at this
  rw [this] at h
  cases h

theorem truncFrom_pre (pat : JStr) :
    ∀ l : JStr, ∃ t : JStr, truncFrom pat l ++ t = l := by
  intro l
  induction l with
  | nil => exact ⟨[], rfl⟩
  | cons c rest ih =>
    by_cases h : startsWithL pat (c :: rest) = true
    · exact ⟨c :: rest, by simp [truncFrom, h]⟩
    · obtain ⟨t, ht⟩ := ih
      refine ⟨t, ?_⟩
      simp only [truncFrom, Bool.not_eq_true] at h ⊢
      rw [h]
      simpa using ht

theorem truncFrom_not_contains {pat : JStr} (hpat : pat ≠ []) :
    ∀ l : JStr, containsL pat (truncFrom pat l) = false := by
  intro l
  induction l with
  | nil =>
    cases pat with
    | nil => exact absurd rfl hpat
    | cons c cs => rfl
  | cons c rest ih =>
    by_cases h : startsWithL pat (c :: rest) = true
    · have he : truncFrom pat (c :: rest) = [] := by simp [truncFrom, h]
      rw [he]
      cases pat with
      | nil => exact absurd rfl hpat
      | cons d ds => rfl
    · have hf : startsWithL pat (c :: rest) = false := by
        revert h; cases startsWithL pat (c :: rest) <;> simp
      have he : truncFrom pat (c :: rest) = c :: truncFrom pat rest := by
        simp [truncFrom, hf]
      rw [he]
      simp only [containsL, Bool.or_eq_false_iff]
      constructor
      · by_contra hs
        have hs' : startsWithL pat (c :: truncFrom pat rest) = true := by
          revert hs; cases startsWithL pat (c :: truncFrom pat rest) <;> simp
        obtain ⟨t, ht⟩ := truncFrom_pre pat rest
        have hext : startsWithL pat (c :: rest) = true :=
          @startsWithL_of_extend pat (c :: truncFrom pat rest) hs' (c :: rest) t
            (by simp [ht])
        rw [hext] at hf; cases hf
      · exact ih

theorem truncFrom_eq_of_not_contains {pat : JStr} :
    ∀ {l : JStr}, containsL pat l = false → truncFrom pat l = l := by
  intro l
  induction l with
  | nil => intro _; rfl
  | cons c rest ih =>
    intro h
    simp only [containsL, Bool.or_eq_false_iff] at h
    simp only [truncFrom, h.1]
    simp only [Bool.false_eq_true, if_false, List.cons.injEq, true_and]
    exact ih h.2

theorem dropSuffixIf_eq_of_not_ends {pat l : JStr}
    (h : endsWithL pat l = false) : dropSuffixIf pat l = l := by
  simp [dropSuffixIf, endsWithL] at h ⊢
  rw [h]
  simp

theorem dropTrailingChar_eq_of_not_ends {c : Char} {l : JStr}
    (h : endsWithL [c] l = false) : dropTrailingChar c l = l := by
  unfold dropTrailingChar
  unfold endsWithL at h
  cases hrev : l.reverse with
  | nil =>
    have : l = [] := by simpa using congrArg List.reverse hrev
    simp [this]
  | cons d ds =>
    rw [hrev] at h
    have hcd : ¬ c = d := by
      intro hcd
      rw [List.reverse_singleton] at h
      simp [startsWithL, hcd] at h
    rw [List.dropWhile_cons]
    rw [if_neg (by simpa using fun hx : d = c => hcd hx.symm)]
    have := congrArg List.reverse hrev
    simpa using this.symm

/-!
Claim C7 machinery: the shared `normalizeRepoUrl` never leaves a
`/tree/` or `/blob/` marker, and is therefore idempotent whenever its
output retains no trailing slash or `.git` suffix.
-/

theorem normalizeRepoUrl_no_tree (u : JStr) :
    containsL (js "/tree/") (normalizeRepoUrl u) = false := by
  unfold normalizeRepoUrl
  obtain ⟨t, ht⟩ :=
    truncFrom_pre (js "/blob/")
      (truncFrom (js "/tree/") (dropSuffixIf (js ".git") (dropTrailingChar '/' u)))
  exact containsL_prefix_false
    (truncFrom_not_contains (by decide)
      (dropSuffixIf (js ".git") (dropTrailingChar '/' u))) ht.symm

theorem normalizeRepoUrl_no_blob (u : JStr) :
    containsL (js "/blob/") (normalizeRepoUrl u) = false := by
  unfold normalizeRepoUrl
  exact truncFrom_not_contains (by decide) _

/-- Claim C7, counterexample: the shared repository-URL normalizer of
`crates.ts` / `pypi.ts` / `packagist.ts` is not idempotent on every URL
string: on `"a/.git"` one pass yields `"a/"` and a second pass `"a"`, so
`normalize(normalize(u)) ≠ normalize(u)`. -/
theorem claim_C7_counterexample :
    normalizeRepoUrl (normalizeRepoUrl (js "a/.git")) ≠
      normalizeRepoUrl (js "a/.git") := by decide

/-- Claim C7, amended: the repository-URL normalizer is idempotent on every
URL string whose normalized form neither ends in a slash nor in `.git`
(the `.git`-stripping and truncation steps can re-expose those two
suffixes, which the already-performed earlier steps would have removed;
no `/tree/` or `/blob/` marker ever survives a pass). -/
theorem claim_C7_amended (u : JStr)
    (h1 : endsWithL (js "/") (normalizeRepoUrl u) = false)
    (h2 : endsWithL (js ".git") (normalizeRepoUrl u) = false) :
    normalizeRepoUrl (normalizeRepoUrl u) = normalizeRepoUrl u := by
  have hnt := normalizeRepoUrl_no_tree u
  have hnb := normalizeRepoUrl_no_blob u
  have h1' : endsWithL ['/'] (normalizeRepoUrl u) = false := h1
  conv_lhs => rw [normalizeRepoUrl]
  rw [dropTrailingChar_eq_of_not_ends h1']
  rw [dropSuffixIf_eq_of_not_ends h2]
  rw [truncFrom_eq_of_not_contains hnt]
  rw [truncFrom_eq_of_not_contains hnb]

/-- Claim C7, witness: a concrete URL whose normalization satisfies the
side conditions and is indeed a fixpoint. -/
theorem claim_C7_witness :
    endsWithL (js "/") (normalizeRepoUrl (js "https://github.com/a/b.git")) = false ∧
    endsWithL (js ".git") (normalizeRepoUrl (js "https://github.com/a/b.git")) = false ∧
    normalizeRepoUrl (normalizeRepoUrl (js "https://github.com/a/b.git")) =
      normalizeRepoUrl (js "https://github.com/a/b.git") :=
  ⟨by decide, by decide, claim_C7_amended (js "https://github.com/a/b.git")
    (by decide) (by decide)⟩

/-!
Lemmas about `splitFirstSub`, `splitOnCharL` and the URL model, leading to
a parse/serialize round trip for the URLs `nugetFinishUrl` builds.
-/

theorem startsWithL_decomp {pat : JStr} :
    ∀ {u : JStr}, startsWithL pat u = true → pat ++ u.drop pat.length = u := by
  induction pat with
  | nil => intro u _; simp
  | cons c cs ih =>
    intro u h
    cases u with
    | nil => simp [startsWithL] at h
    | cons d ds =>
      simp only [startsWithL, Bool.and_eq_true, decide_eq_true_eq] at h
      obtain ⟨rfl, h2⟩ := h
      simpa using ih h2

theorem splitFirstSub_decomp {pat : JStr} :
    ∀ {l a b : JStr}, splitFirstSub pat l = some (a, b) → a ++ pat ++ b = l := by
  intro l
  induction l with
  | nil =>
    intro a b h
    simp only [splitFirstSub] at h
    by_cases hs : startsWithL pat [] = true
    · rw [if_pos hs] at h
      cases pat with
      | nil =>
        simp only [Option.some.injEq, Prod.mk.injEq] at h
        obtain ⟨rfl, rfl⟩ := h
        rfl
      | cons c cs => cases hs
    · rw [if_neg hs] at h; cases h
  | cons c rest ih =>
    intro a b h
    simp only [splitFirstSub] at h
    by_cases hs : startsWithL pat (c :: rest) = true
    · rw [if_pos hs] at h
      simp only [Option.some.injEq, Prod.mk.injEq] at h
      obtain ⟨rfl, rfl⟩ := h
      simpa using startsWithL_decomp hs
    · rw [if_neg hs] at h
      cases hrec : splitFirstSub pat rest with
      | none => rw [hrec] at h; cases h
      | some ab =>
        rw [hrec] at h
        obtain ⟨a', b'⟩ := ab
        simp only [Option.some.injEq, Prod.mk.injEq] at h
        obtain ⟨rfl, rfl⟩ := h
        have := ih hrec
        simpa using this

theorem splitFirstSub_not_contains {pat : JStr} (hpat : pat ≠ []) :
    ∀ {l a b : JStr}, splitFirstSub pat l = some (a, b) → containsL pat a = false := by
  intro l
  induction l with
  | nil =>
    intro a b h
    simp only [splitFirstSub] at h
    by_cases hs : startsWithL pat [] = true
    · rw [if_pos hs] at h
      cases pat with
      | nil => exact absurd rfl hpat
      | cons c cs => cases hs
    · rw [if_neg hs] at h; cases h
  | cons c rest ih =>
    intro a b h
    simp only [splitFirstSub] at h
    by_cases hs : startsWithL pat (c :: rest) = true
    · rw [if_pos hs] at h
      simp only [Option.some.injEq, Prod.mk.injEq] at h
      obtain ⟨rfl, rfl⟩ := h
      cases pat with
      | nil => exact absurd rfl hpat
      | cons d ds => rfl
    · rw [if_neg hs] at h
      cases hrec : splitFirstSub pat rest with
      | none => rw [hrec] at h; cases h
      | some ab =>
        rw [hrec] at h
        obtain ⟨a', b'⟩ := ab
        simp only [Option.some.injEq, Prod.mk.injEq] at h
        obtain ⟨rfl, rfl⟩ := h
        have hca : containsL pat a' = false := ih hrec
        simp only [containsL, Bool.or_eq_false_iff]
        constructor
        · by_contra hw
          have hw' : startsWithL pat (c :: a') = true := by
            revert hw; cases startsWithL pat (c :: a') <;> simp
          have hdec : a' ++ (pat ++ b') = rest := by
            simpa using splitFirstSub_decomp hrec
          have : startsWithL pat (c :: rest) = true :=
            @startsWithL_of_extend pat (c :: a') hw' (c :: rest) (pat ++ b')
              (by simp [hdec])
          exact hs this
        · exact hca

theorem splitFirstSub_sep (y : JStr) :
    ∀ x : JStr, containsL (js "://") x = false →
      splitFirstSub (js "://") (x ++ js "://" ++ y) = some (x, y) := by
  have hsep : js "://" = [':', '/', '/'] := by decide
  intro x
  induction x with
  | nil =>
    intro _
    rw [hsep]
    show splitFirstSub [':', '/', '/'] (':' :: '/' :: '/' :: y) = some ([], y)
    simp [splitFirstSub, startsWithL]
  | cons c cs ih =>
    intro hx
    simp only [containsL, Bool.or_eq_false_iff] at hx
    have hxs := hx.1
    have hx' := hx.2
    rw [hsep] at hxs ⊢
    have hstart : startsWithL [':', '/', '/'] ((c :: cs) ++ [':', '/', '/'] ++ y) = false := by
      cases cs with
      | nil => simp [startsWithL]
      | cons d ds =>
        cases ds with
        | nil => simp [startsWithL]
        | cons e es =>
          have heq :
              startsWithL [':', '/', '/'] ((c :: d :: e :: es) ++ [':', '/', '/'] ++ y) =
                startsWithL [':', '/', '/'] (c :: d :: e :: es) := by
            simp [startsWithL]
          rw [heq]
          exact hxs
    have ih' := ih hx'
    rw [hsep] at ih'
    simp only [List.append_assoc, List.cons_append, List.nil_append] at hstart ih' ⊢
    simp only [splitFirstSub]
    rw [if_neg (by simp [hstart])]
    rw [ih']

theorem splitOnCharL_no_sep {c : Char} :
    ∀ {x : JStr}, (∀ d ∈ x, d ≠ c) → splitOnCharL c x = [x] := by
  intro x
  induction x with
  | nil => intro _; rfl
  | cons d rest ih =>
    intro h
    have hd : ¬ d = c := h d (List.mem_cons_self d rest)
    have ih' := ih (fun e he => h e (List.mem_cons_of_mem d he))
    simp only [splitOnCharL]
    rw [if_neg (by simpa using hd), ih']

theorem splitOnCharL_append {c : Char} (y : JStr) :
    ∀ {x : JStr}, (∀ d ∈ x, d ≠ c) →
      splitOnCharL c (x ++ c :: y) = x :: splitOnCharL c y := by
  intro x
  induction x with
  | nil =>
    intro _
    simp only [List.nil_append, splitOnCharL]
    simp
  | cons d rest ih =>
    intro h
    have hd : ¬ d = c := h d (List.mem_cons_self d rest)
    have ih' := ih (fun e he => h e (List.mem_cons_of_mem d he))
    simp only [List.cons_append, splitOnCharL, List.append_eq]
    rw [if_neg (by simpa using hd)]
    simp only [List.append_eq] at ih'
    rw [ih']

theorem splitOnCharL_chunk_no_sep {c : Char} :
    ∀ {l x : JStr}, x ∈ splitOnCharL c l → ∀ d ∈ x, d ≠ c := by
  intro l
  induction l with
  | nil =>
    intro x hx d hd
    simp only [splitOnCharL, List.mem_singleton] at hx
    subst hx
    cases hd
  | cons e rest ih =>
    intro x hx d hd
    simp only [splitOnCharL] at hx
    by_cases he : e = c
    · rw [if_pos (by simpa using he)] at hx
      cases hx with
      | head => cases hd
      | tail _ hx' => exact ih hx' d hd
    · rw [if_neg (by simpa using he)] at hx
      cases hrec : splitOnCharL c rest with
      | nil => rw [hrec] at hx; simp at hx; subst hx; simp at hd; subst hd; exact he
      | cons chunk chunks =>
        rw [hrec] at hx
        cases hx with
        | head =>
          cases hd with
          | head => exact he
          | tail _ hd' => exact ih (hrec ▸ List.mem_cons_self chunk chunks) d hd'
        | tail _ hx' =>
          exact ih (hrec ▸ List.mem_cons_of_mem chunk hx') d hd

theorem splitOnCharL_chunk_subset {c : Char} :
    ∀ {l x : JStr}, x ∈ splitOnCharL c l → ∀ d ∈ x, d ∈ l := by
  intro l
  induction l with
  | nil =>
    intro x hx d hd
    simp only [splitOnCharL, List.mem_singleton] at hx
    subst hx
    cases hd
  | cons e rest ih =>
    intro x hx d hd
    simp only [splitOnCharL] at hx
    by_cases he : e = c
    · rw [if_pos (by simpa using he)] at hx
      cases hx with
      | head => cases hd
      | tail _ hx' => exact List.mem_cons_of_mem e (ih hx' d hd)
    · rw [if_neg (by simpa using he)] at hx
      cases hrec : splitOnCharL c rest with
      | nil =>
        rw [hrec] at hx; simp at hx; subst hx; simp at hd; subst hd
        exact List.mem_cons_self _ _
      | cons chunk chunks =>
        rw [hrec] at hx
        cases hx with
        | head =>
          cases hd with
          | head => exact List.mem_cons_self _ _
          | tail _ hd' =>
            exact List.mem_cons_of_mem e
              (ih (hrec ▸ List.mem_cons_self chunk chunks) _ hd')
        | tail _ hx' =>
          exact List.mem_cons_of_mem e (ih (hrec ▸ List.mem_cons_of_mem chunk hx') d hd)

theorem splitSegs_mem {path x : JStr} (hx : x ∈ splitSegs path) :
    x ≠ [] ∧ (∀ d ∈ x, d ≠ '/') ∧ (∀ d ∈ x, d ∈ path) := by
  unfold splitSegs at hx
  have hx' := List.mem_filter.mp hx
  refine ⟨by simpa using hx'.2, ?_, ?_⟩
  · exact splitOnCharL_chunk_no_sep hx'.1
  · exact splitOnCharL_chunk_subset hx'.1

theorem splitSegs_pair {p0 p1 : JStr} (h0 : p0 ≠ []) (h1 : p1 ≠ [])
    (hn0 : ∀ d ∈ p0, d ≠ '/') (hn1 : ∀ d ∈ p1, d ≠ '/') :
    splitSegs (js "/" ++ p0 ++ js "/" ++ p1) = [p0, p1] := by
  have hslash : js "/" = ['/'] := by decide
  rw [hslash]
  unfold splitSegs
  have h1' : splitOnCharL '/' p1 = [p1] := splitOnCharL_no_sep hn1
  have h2' : splitOnCharL '/' (p0 ++ '/' :: p1) = p0 :: [p1] := by
    rw [splitOnCharL_append p1 hn0, h1']
  have h3' : splitOnCharL '/' ('/' :: (p0 ++ '/' :: p1)) =
      [] :: p0 :: [p1] := by
    simp only [splitOnCharL]
    simp [h2']
  simp only [List.append_assoc, List.cons_append, List.nil_append]
  rw [h3']
  simp [List.filter, h0, h1]

theorem splitSegs_single {p0 : JStr} (h0 : p0 ≠ [])
    (hn0 : ∀ d ∈ p0, d ≠ '/') :
    splitSegs (js "/" ++ p0) = [p0] := by
  have hslash : js "/" = ['/'] := by decide
  rw [hslash]
  unfold splitSegs
  have h1' : splitOnCharL '/' p0 = [p0] := splitOnCharL_no_sep hn0
  have h3' : splitOnCharL '/' ('/' :: p0) = [] :: [p0] := by
    simp only [splitOnCharL]
    simp [h1']
  simp only [List.cons_append, List.nil_append]
  rw [h3']
  simp [List.filter, h0]

theorem takeWhile_append_stop {p : Char → Bool} (d : Char) (y : JStr) :
    ∀ {x : JStr}, (∀ c ∈ x, p c = true) → p d = false →
      (x ++ d :: y).takeWhile p = x ∧ (x ++ d :: y).dropWhile p = d :: y := by
  intro x
  induction x with
  | nil =>
    intro _ hd
    simp [List.takeWhile_cons, List.dropWhile_cons, hd]
  | cons e rest ih =>
    intro hx hd
    have he : p e = true := hx e (List.mem_cons_self e rest)
    have ih' := ih (fun c hc => hx c (List.mem_cons_of_mem e hc)) hd
    simp only [List.cons_append, List.takeWhile_cons, List.dropWhile_cons, he,
      if_true]
    exact ⟨by rw [ih'.1], by rw [ih'.2]⟩

theorem not_endsWith_of_all_ne {c : Char} {p : JStr} (hp : p ≠ [])
    (hn : ∀ d ∈ p, d ≠ c) (y : JStr) : endsWithL [c] (y ++ p) = false := by
  unfold endsWithL
  rw [List.reverse_append]
  cases hpr : p.reverse with
  | nil => exact absurd (by simpa using congrArg List.reverse hpr) hp
  | cons q qs =>
    have hq : q ∈ p := by
      have : q ∈ p.reverse := by rw [hpr]; exact List.mem_cons_self _ _
      simpa using this
    have hcq : ¬ (c = q) := fun hcq => hn q hq hcq.symm
    simp [startsWithL, hcq]

theorem dropTrailingChar_append_single (c : Char) (x : JStr) :
    dropTrailingChar c (x ++ [c]) = dropTrailingChar c x := by
  unfold dropTrailingChar
  rw [List.reverse_append]
  simp [List.dropWhile_cons]

/-- Number of path segments of a parsed URL string. -/
def urlPathSegCount (s : JStr) : Option Nat :=
  (parseUrl s).map (fun p => (splitSegs p.path).length)

theorem parseUrl_props {s : JStr} {ps : UrlParts} (h : parseUrl s = some ps) :
    containsL (js "://") ps.scheme = false ∧ ps.authority ≠ [] ∧
      (∀ c ∈ ps.authority, c ≠ '/' ∧ c ≠ '?' ∧ c ≠ '#') ∧
      (∀ c ∈ ps.path, c ≠ '?' ∧ c ≠ '#') := by
  unfold parseUrl at h
  cases hsp : splitFirstSub (js "://") s with
  | none => rw [hsp] at h; cases h
  | some ab =>
    rw [hsp] at h
    obtain ⟨scheme, rest⟩ := ab
    simp only at h
    split at h
    next => cases h
    next hne =>
      simp only [Option.some.injEq] at h
      subst h
      refine ⟨splitFirstSub_not_contains (by decide) hsp, hne, ?_, ?_⟩
      · intro c hc
        have := List.mem_takeWhile_imp hc
        simp only [Bool.and_eq_true, decide_eq_true_eq, bne_iff_ne, ne_eq] at this
        exact ⟨by simpa using this.1.1, by simpa using this.1.2, by simpa using this.2⟩
      · intro c hc
        have := List.mem_takeWhile_imp hc
        simp only [Bool.and_eq_true, decide_eq_true_eq, bne_iff_ne, ne_eq] at this
        exact ⟨by simpa using this.1, by simpa using this.2⟩

theorem parseUrl_roundtrip (scheme auth path : JStr)
    (hs : containsL (js "://") scheme = false)
    (ha : auth ≠ [])
    (haC : ∀ c ∈ auth, c ≠ '/' ∧ c ≠ '?' ∧ c ≠ '#')
    (hp : ∃ p', path = '/' :: p')
    (hpC : ∀ c ∈ path, c ≠ '?' ∧ c ≠ '#') :
    parseUrl (scheme ++ js "://" ++ auth ++ path) =
      some ⟨scheme, auth, path, [], []⟩ := by
  obtain ⟨p', rfl⟩ := hp
  unfold parseUrl
  have hassoc : scheme ++ js "://" ++ auth ++ '/' :: p' =
      scheme ++ js "://" ++ (auth ++ '/' :: p') := by simp
  rw [hassoc, splitFirstSub_sep (auth ++ '/' :: p') scheme hs]
  have hstop :=
    @takeWhile_append_stop (fun c => c ≠ '/' && c ≠ '?' && c ≠ '#') '/' p' auth
      (fun c hc => by
        have := haC c hc
        simp only [Bool.and_eq_true, bne_iff_ne, ne_eq]
        exact ⟨⟨by simpa using this.1, by simpa using this.2.1⟩, by simpa using this.2.2⟩)
      (by simp)
  simp only at hstop ⊢
  rw [hstop.1, hstop.2]
  rw [if_neg (by simpa using ha)]
  have hall : ∀ c ∈ '/' :: p', (fun c => c ≠ '?' && c ≠ '#') c = true := by
    intro c hc
    have := hpC c hc
    simp only [Bool.and_eq_true, bne_iff_ne, ne_eq]
    exact ⟨by simpa using this.1, by simpa using this.2⟩
  rw [List.takeWhile_eq_self_iff.mpr hall, List.dropWhile_eq_nil_iff.mpr hall]
  rfl

theorem dropSuffixIfCI_subset (pat : JStr) (l : JStr) :
    ∀ d ∈ dropSuffixIfCI pat l, d ∈ l := by
  intro d hd
  unfold dropSuffixIfCI at hd
  split at hd
  · have : d ∈ l.reverse.drop pat.length := by simpa using hd
    have := List.mem_of_mem_drop this
    simpa using this
  · exact hd

theorem nugetStripTreeBlob_scheme (u : UrlParts) :
    (nugetStripTreeBlob u).scheme = u.scheme := by
  simp only [nugetStripTreeBlob]; split <;> rfl

theorem nugetStripTreeBlob_authority (u : UrlParts) :
    (nugetStripTreeBlob u).authority = u.authority := by
  simp only [nugetStripTreeBlob]; split <;> rfl

theorem nugetStripTreeBlob_search (u : UrlParts) :
    (nugetStripTreeBlob u).search = u.search := by
  simp only [nugetStripTreeBlob]; split <;> rfl

theorem nugetStripTreeBlob_hash (u : UrlParts) :
    (nugetStripTreeBlob u).hash = u.hash := by
  simp only [nugetStripTreeBlob]; split <;> rfl

theorem nugetStripTreeBlob_path_chars (u : UrlParts) :
    ∀ c ∈ (nugetStripTreeBlob u).path, c = '/' ∨ c ∈ u.path := by
  simp only [nugetStripTreeBlob]
  split
  next hcond =>
    intro c hc
    simp only [List.append_assoc] at hc
    have hslash : js "/" = ['/'] := by decide
    rw [hslash] at hc
    rcases List.mem_append.mp hc with hc1 | hc2
    · exact Or.inl (by simpa using hc1)
    · rcases List.mem_append.mp hc2 with hc3 | hc4
      · -- c ∈ headI of the segments
        have hlen : (splitSegs u.path).length ≥ 4 := by
          simp only [Bool.and_eq_true, decide_eq_true_eq] at hcond
          exact hcond.1
        cases hsegs : splitSegs u.path with
        | nil => rw [hsegs] at hlen; simp at hlen
        | cons a t =>
          rw [hsegs] at hc3
          have ha : a ∈ splitSegs u.path := by
            rw [hsegs]; exact List.mem_cons_self _ _
          exact Or.inr ((splitSegs_mem ha).2.2 c (by simpa using hc3))
      · rcases List.mem_append.mp hc4 with hc5 | hc6
        · exact Or.inl (by simpa using hc5)
        · cases hget : (splitSegs u.path).get? 1 with
          | none => rw [hget] at hc6; simp at hc6
          | some b =>
            rw [hget] at hc6
            have hb : b ∈ splitSegs u.path := List.get?_mem hget
            exact Or.inr ((splitSegs_mem hb).2.2 c (by simpa using hc6))
  next =>
    intro c hc
    exact Or.inr hc

theorem nugetFinishUrl_shape {u2 : UrlParts} {v : JStr}
    (hs : containsL (js "://") u2.scheme = false)
    (ha : u2.authority ≠ [])
    (haC : ∀ c ∈ u2.authority, c ≠ '/' ∧ c ≠ '?' ∧ c ≠ '#')
    (hpC : ∀ c ∈ u2.path, c ≠ '?' ∧ c ≠ '#')
    (hse : u2.search = []) (hha : u2.hash = [])
    (h : nugetFinishUrl u2 = some v) :
    ∃ p3 : JStr, parseUrl v = some ⟨u2.scheme, u2.authority, p3, [], []⟩ ∧
      ((splitSegs p3).length = 2 ∨ (splitSegs p3).length = 1) := by
  have hslash : js "/" = ['/'] := by decide
  simp only [nugetFinishUrl] at h
  split at h
  next hlen =>
    obtain ⟨a, b, hab⟩ := List.length_eq_two.mp hlen
    rw [hab] at h
    simp only [List.headI, List.get?, Option.getD_some, Option.some.injEq] at h
    have hamem : a ∈ splitSegs u2.path := by rw [hab]; exact List.mem_cons_self _ _
    have hbmem : b ∈ splitSegs u2.path := by
      rw [hab]; exact List.mem_cons_of_mem a (List.mem_cons_self _ _)
    obtain ⟨hane, hansl, hasub⟩ := splitSegs_mem hamem
    obtain ⟨hbne, hbnsl, hbsub⟩ := splitSegs_mem hbmem
    set p1 := dropSuffixIfCI (js ".git") b with hp1def
    have hp1sub : ∀ d ∈ p1, d ∈ b := dropSuffixIfCI_subset (js ".git") b
    have hp1nsl : ∀ d ∈ p1, d ≠ '/' := fun d hd => hbnsl d (hp1sub d hd)
    have hserial :
        urlToString { u2 with path := js "/" ++ a ++ js "/" ++ p1 } =
          u2.scheme ++ js "://" ++ u2.authority ++ (js "/" ++ a ++ js "/" ++ p1) := by
      unfold urlToString
      simp [hse, hha]
    by_cases hp1e : p1 = []
    · -- the repo segment was exactly ".git": a one-segment URL survives
      rw [hp1e] at h hserial
      have hform :
          u2.scheme ++ js "://" ++ u2.authority ++ (js "/" ++ a ++ js "/" ++ []) =
            (u2.scheme ++ js "://" ++ u2.authority ++ (js "/" ++ a)) ++ ['/'] := by
        rw [hslash]; simp
      rw [hserial, hform] at h
      rw [dropTrailingChar_append_single] at h
      have hnoend : endsWithL ['/']
          (u2.scheme ++ js "://" ++ u2.authority ++ (js "/" ++ a)) = false := by
        have := not_endsWith_of_all_ne hane hansl
          (u2.scheme ++ js "://" ++ u2.authority ++ ['/'])
        rw [hslash]
        simpa [List.append_assoc] using this
      rw [dropTrailingChar_eq_of_not_ends hnoend] at h
      refine ⟨js "/" ++ a, ?_, Or.inr ?_⟩
      · rw [← h]
        have := parseUrl_roundtrip u2.scheme u2.authority (js "/" ++ a) hs ha haC
          ⟨a, by rw [hslash]; rfl⟩
          (fun c hc => by
            rw [hslash] at hc
            rcases List.mem_append.mp hc with h1 | h2
            · simp only [List.mem_singleton] at h1
              subst h1
              exact ⟨by decide, by decide⟩
            · exact hpC c (hasub c h2))
        simpa [List.append_assoc] using this
      · rw [splitSegs_single hane hansl]; rfl
    · -- two segments
      have hform :
          u2.scheme ++ js "://" ++ u2.authority ++ (js "/" ++ a ++ js "/" ++ p1) =
            (u2.scheme ++ js "://" ++ u2.authority ++ js "/" ++ a ++ js "/") ++ p1 := by
        simp
      rw [hserial, hform] at h
      have hnoend : endsWithL ['/']
          ((u2.scheme ++ js "://" ++ u2.authority ++ js "/" ++ a ++ js "/") ++ p1) =
            false :=
        not_endsWith_of_all_ne hp1e hp1nsl _
      rw [dropTrailingChar_eq_of_not_ends hnoend] at h
      refine ⟨js "/" ++ a ++ js "/" ++ p1, ?_, Or.inl ?_⟩
      · rw [← h]
        have := parseUrl_roundtrip u2.scheme u2.authority
          (js "/" ++ a ++ js "/" ++ p1) hs ha haC
          ⟨a ++ js "/" ++ p1, by rw [hslash]; simp⟩
          (fun c hc => by
            rw [hslash] at hc
            simp only [List.append_assoc] at hc
            rcases List.mem_append.mp hc with h1 | h2
            · simp only [List.mem_singleton] at h1
              subst h1
              exact ⟨by decide, by decide⟩
            · rcases List.mem_append.mp h2 with h3 | h4
              · exact hpC c (hasub c h3)
              · rcases List.mem_append.mp h4 with h5 | h6
                · simp only [List.mem_singleton] at h5
                  subst h5
                  exact ⟨by decide, by decide⟩
                · exact hpC c (hbsub c (hp1sub c h6)))
        simpa [List.append_assoc] using this
      · rw [splitSegs_pair hane hp1e hansl hp1nsl]; rfl
  next => cases h

theorem normalizeNuGetRepoUrl_shape {u v : JStr}
    (h : normalizeNuGetRepoUrl u = some v) :
    ∃ ps : UrlParts, parseUrl v = some ps ∧
      allowedGitHost (toLowerL (hostnameOf ps.authority)) = true ∧
      ((splitSegs ps.path).length = 2 ∨ (splitSegs ps.path).length = 1) := by
  unfold normalizeNuGetRepoUrl at h
  split at h
  next => cases h
  next =>
    split at h
    next => cases h
    next url0 hp =>
      split at h
      next hhost =>
        set u1 : UrlParts := { url0 with search := [], hash := [] } with hu1
        obtain ⟨hps, hpa, hpaC, hppC⟩ := parseUrl_props hp
        have hu2s : (nugetStripTreeBlob u1).scheme = url0.scheme :=
          nugetStripTreeBlob_scheme u1
        have hu2a : (nugetStripTreeBlob u1).authority = url0.authority :=
          nugetStripTreeBlob_authority u1
        have hu2se : (nugetStripTreeBlob u1).search = [] :=
          nugetStripTreeBlob_search u1
        have hu2ha : (nugetStripTreeBlob u1).hash = [] :=
          nugetStripTreeBlob_hash u1
        have hu2pC : ∀ c ∈ (nugetStripTreeBlob u1).path, c ≠ '?' ∧ c ≠ '#' := by
          intro c hc
          rcases nugetStripTreeBlob_path_chars u1 c hc with h1 | h2
          · subst h1; exact ⟨by decide, by decide⟩
          · exact hppC c h2
        obtain ⟨p3, hparse, hcount⟩ :=
          @nugetFinishUrl_shape (nugetStripTreeBlob u1) _
            (by rw [hu2s]; exact hps)
            (by rw [hu2a]; exact hpa)
            (by rw [hu2a]; exact hpaC)
            hu2pC hu2se hu2ha h
        refine ⟨⟨url0.scheme, url0.authority, p3, [], []⟩, ?_, ?_, hcount⟩
        · rw [hu2s, hu2a] at hparse
          exact hparse
        · simpa using hhost
      next => cases h

/-- Claim C6, counterexample: the crates/PyPI/Packagist repository-URL
normalizer does not map the candidate
`git+https://github.com/a/b.git/tree/dev?x=1#frag` to
`https://github.com/a/b`: it strips `.git` before the `/tree/` sub-path, so
the `git+` prefix and the `.git` suffix survive. -/
theorem claim_C6_counterexample :
    normalizeRepoUrl (js "git+https://github.com/a/b.git/tree/dev?x=1#frag") ≠
      js "https://github.com/a/b" := by decide

/-- Claim C6, amended: only the NuGet normalizer maps the candidate
`git+https://github.com/a/b.git/tree/dev?x=1#frag` to exactly
`https://github.com/a/b`; the crates/PyPI/Packagist normalizer leaves
`git+https://github.com/a/b.git` and the npm normalization chain leaves the
`/tree/...` sub-path, query and fragment in place. -/
theorem claim_C6_amended :
    normalizeNuGetRepoUrl (js "git+https://github.com/a/b.git/tree/dev?x=1#frag") =
      some (js "https://github.com/a/b") ∧
    normalizeRepoUrl (js "git+https://github.com/a/b.git/tree/dev?x=1#frag") =
      js "git+https://github.com/a/b.git" ∧
    npmNormalizeRepoUrl (js "git+https://github.com/a/b.git/tree/dev?x=1#frag") =
      js "https://github.com/a/b.git/tree/dev?x=1#frag" :=
  ⟨by decide, by decide, by decide⟩

/-- Claim C8, counterexample: the crates resolver accepts a repository URL
with three path segments and returns it unchanged in the `ResolvedPackage`,
instead of rejecting it. -/
theorem claim_C8_counterexample :
    resolveCrate (js "c") none
        ⟨⟨js "c", js "1.0.0", some (js "https://github.com/a/b/c"), none⟩, []⟩
        (fun _ => false) =
      Except.ok
        ⟨js "crates", js "c", js "1.0.0", js "https://github.com/a/b/c", none,
          js "v1.0.0"⟩ ∧
    urlPathSegCount (js "https://github.com/a/b/c") = some 3 :=
  ⟨by decide, by decide⟩

/-- Claim C8, amended: every URL the NuGet normalizer accepts has exactly
two path segments, except that a repo segment equal to `.git` is stripped
to empty and leaves a single segment; the Maven normalizer instead silently
truncates github/gitlab URLs to their first two segments and accepts other
http(s) URLs whatever their segment count, and the crates/PyPI/Packagist
normalizer does not inspect segment counts at all. -/
theorem claim_C8_amended :
    (∀ u v : JStr, normalizeNuGetRepoUrl u = some v →
      urlPathSegCount v = some 2 ∨ urlPathSegCount v = some 1) ∧
    normalizeScmUrl (js "https://github.com/a/b/c") =
      some (js "https://github.com/a/b") ∧
    normalizeScmUrl (js "https://github.com/a") =
      some (js "https://github.com/a") ∧
    normalizeRepoUrl (js "https://github.com/a/b/c") =
      js "https://github.com/a/b/c" := by
  refine ⟨?_, by decide, by decide, by decide⟩
  intro u v h
  obtain ⟨ps, hparse, _, hcount⟩ := normalizeNuGetRepoUrl_shape h
  unfold urlPathSegCount
  rw [hparse]
  rcases hcount with h2 | h1
  · exact Or.inl (by simp [h2])
  · exact Or.inr (by simp [h1])

/-- Claim C8, witness: the NuGet normalizer output for a concrete candidate
has exactly two path segments. -/
theorem claim_C8_witness :
    urlPathSegCount (js "https://github.com/a/b") = some 2 ∨
      urlPathSegCount (js "https://github.com/a/b") = some 1 :=
  claim_C8_amended.1 (js "git+https://github.com/a/b.git/tree/dev?x=1#frag")
    (js "https://github.com/a/b") (by decide)

/-- Claim C5, counterexample: the npm resolver performs no host allow-list
check at all: a repository URL on `example.com` is returned in the
`ResolvedPackage` instead of being rejected or failing with a
no-repository-metadata error. -/
theorem claim_C5_counterexample :
    resolveNpmPackage (js "zz") none
        ⟨[(js "1.0.0", ⟨none⟩)], js "1.0.0",
          some ⟨some (js "https://example.com/foo.git"), none⟩⟩ =
      Except.ok
        ⟨js "npm", js "zz", js "1.0.0", js "https://example.com/foo", none,
          js "v1.0.0"⟩ ∧
    isGitRepoUrl (js "https://example.com/foo") = false :=
  ⟨by decide, by decide⟩

/-- Claim C5, amended: the NuGet normalizer only accepts URLs whose parsed
hostname is on the allow-list; the crates resolver fails with its
no-repository-metadata error when neither metadata candidate contains a
known git host name; the crates/PyPI/Packagist/Maven check is a substring
test rather than a hostname test, and npm performs no host check at all. -/
theorem claim_C5_amended :
    (∀ u v : JStr, normalizeNuGetRepoUrl u = some v →
      ∃ ps : UrlParts, parseUrl v = some ps ∧
        allowedGitHost (toLowerL (hostnameOf ps.authority)) = true) ∧
    (∀ (crateName : JStr) (info : CrateResponse) (vex : JStr → Bool),
      (∀ r, info.crate.repository = some r → isGitRepoUrl r = false) →
      (∀ hp, info.crate.homepage = some hp → isGitRepoUrl hp = false) →
      resolveCrate crateName none info vex =
        Except.error (cratesNoRepoMsg crateName info.crate.max_version info)) := by
  constructor
  · intro u v h
    obtain ⟨ps, hparse, hhost, _⟩ := normalizeNuGetRepoUrl_shape h
    exact ⟨ps, hparse, hhost⟩
  · intro crateName info vex hr hh
    have hext : cratesExtractRepoUrl info.crate = none := by
      unfold cratesExtractRepoUrl
      cases hrep : info.crate.repository with
      | some r =>
        rw [if_neg (by simp [jsTruthy, hrep, hr r hrep])]
        cases hhp : info.crate.homepage with
        | some hp => rw [if_neg (by simp [jsTruthy, hhp, hh hp hhp])]
        | none => rw [if_neg (by simp [jsTruthy, hhp])]
      | none =>
        rw [if_neg (by simp [jsTruthy, hrep])]
        cases hhp : info.crate.homepage with
        | some hp => rw [if_neg (by simp [jsTruthy, hhp, hh hp hhp])]
        | none => rw [if_neg (by simp [jsTruthy, hhp])]
    unfold resolveCrate
    rw [if_neg (by simp [jsTruthy])]
    rw [hext]
    rfl

/-- Claim C5, witness: both conjuncts at concrete inputs — the NuGet
normalizer output for a github URL parses to an allow-listed host, and a
crate whose repository and homepage are not on a known git host resolves to
the no-repository-metadata error. -/
theorem claim_C5_witness :
    (∃ ps : UrlParts, parseUrl (js "https://github.com/a/b") = some ps ∧
      allowedGitHost (toLowerL (hostnameOf ps.authority)) = true) ∧
    resolveCrate (js "c") none
        ⟨⟨js "c", js "1.0.0", some (js "https://example.org/x"), none⟩, []⟩
        (fun _ => false) =
      Except.error
        (cratesNoRepoMsg (js "c") (js "1.0.0")
          ⟨⟨js "c", js "1.0.0", some (js "https://example.org/x"), none⟩, []⟩) :=
  ⟨claim_C5_amended.1 (js "git+https://github.com/a/b.git/tree/dev?x=1#frag")
      (js "https://github.com/a/b") (by decide),
    claim_C5_amended.2 (js "c")
      ⟨⟨js "c", js "1.0.0", some (js "https://example.org/x"), none⟩, []⟩
      (fun _ => false)
      (by
        intro r hrr
        simp only [Option.some.injEq] at hrr
        subst hrr
        decide)
      (by
        intro hp hpp
        cases hpp)⟩

/-!
Claim C2 machinery: the NuGet comparator is a total preorder, so the
`reduce` in `resolveVersionFromLeaves` picks a maximum.  `IsCmp` collects
the sign-level laws a JS comparator needs for that argument.
-/

/-- Sign-level laws of a comparator: antisymmetric signs and transitivity
of strict ordering and of ties. -/
structure IsCmp {α : Type} (c : α → α → Int) : Prop where
  neg : ∀ a b, c a b = -(c b a)
  lt_trans : ∀ {a b d}, c a b < 0 → c b d < 0 → c a d < 0
  eq_trans : ∀ {a b d}, c a b = 0 → c b d = 0 → c a d = 0
  eq_lt : ∀ {a b d}, c a b = 0 → c b d < 0 → c a d < 0
  lt_eq : ∀ {a b d}, c a b < 0 → c b d = 0 → c a d < 0

theorem IsCmp.self_eq {α : Type} {c : α → α → Int} (hc : IsCmp c) (a : α) :
    c a a = 0 := by
  have := hc.neg a a; omega

theorem IsCmp.le_trans {α : Type} {c : α → α → Int} (hc : IsCmp c) {a b d : α}
    (h1 : c a b ≤ 0) (h2 : c b d ≤ 0) : c a d ≤ 0 := by
  rcases lt_or_eq_of_le h1 with h1' | h1' <;> rcases lt_or_eq_of_le h2 with h2' | h2'
  · exact le_of_lt (hc.lt_trans h1' h2')
  · exact le_of_lt (hc.lt_eq h1' h2')
  · exact le_of_lt (hc.eq_lt h1' h2')
  · exact le_of_eq (hc.eq_trans h1' h2')

theorem lexCmp_cons_lt {α : Type} {c : α → α → Int} {x y : α} {xs ys : List α} :
    lexCmp c (x :: xs) (y :: ys) < 0 ↔
      (c x y < 0 ∨ (c x y = 0 ∧ lexCmp c xs ys < 0)) := by
  simp only [lexCmp]
  by_cases h : c x y = 0
  · simp [h]
  · rw [if_pos (by simpa using h)]
    constructor
    · intro hlt; exact Or.inl hlt
    · rintro (hlt | ⟨he, _⟩)
      · exact hlt
      · exact absurd he h

theorem lexCmp_cons_eq {α : Type} {c : α → α → Int} {x y : α} {xs ys : List α} :
    lexCmp c (x :: xs) (y :: ys) = 0 ↔ (c x y = 0 ∧ lexCmp c xs ys = 0) := by
  simp only [lexCmp]
  by_cases h : c x y = 0
  · simp [h]
  · rw [if_pos (by simpa using h)]
    constructor
    · intro he; exact absurd he h
    · rintro ⟨he, _⟩; exact absurd he h

theorem lexCmp_neg {α : Type} {c : α → α → Int} (hneg : ∀ a b, c a b = -(c b a)) :
    ∀ a b : List α, lexCmp c a b = -(lexCmp c b a) := by
  intro a
  induction a with
  | nil => intro b; cases b <;> simp [lexCmp]
  | cons x xs ih =>
    intro b
    cases b with
    | nil => simp [lexCmp]
    | cons y ys =>
      simp only [lexCmp]
      by_cases h : c x y = 0
      · have h' : c y x = 0 := by have := hneg x y; omega
        simp [h, h', ih ys]
      · have h' : ¬ c y x = 0 := by have := hneg x y; omega
        rw [if_pos (by simpa using h), if_pos (by simpa using h')]
        have := hneg x y; omega

theorem lexCmp_trans_all {α : Type} {c : α → α → Int} (hc : IsCmp c) :
    ∀ a b d : List α,
      (lexCmp c a b < 0 → lexCmp c b d < 0 → lexCmp c a d < 0) ∧
      (lexCmp c a b = 0 → lexCmp c b d = 0 → lexCmp c a d = 0) ∧
      (lexCmp c a b = 0 → lexCmp c b d < 0 → lexCmp c a d < 0) ∧
      (lexCmp c a b < 0 → lexCmp c b d = 0 → lexCmp c a d < 0) := by
  intro a
  induction a with
  | nil =>
    intro b d
    cases b with
    | nil =>
      cases d <;> simp [lexCmp]
    | cons y ys =>
      cases d with
      | nil => simp [lexCmp]
      | cons z zs => simp [lexCmp]
  | cons x xs ih =>
    intro b d
    cases b with
    | nil => simp [lexCmp]
    | cons y ys =>
      cases d with
      | nil => simp [lexCmp]
      | cons z zs =>
        obtain ⟨ihlt, iheq, ihel, ihle⟩ := ih ys zs
        refine ⟨?_, ?_, ?_, ?_⟩
        · intro h1 h2
          rcases lexCmp_cons_lt.mp h1 with hl1 | ⟨he1, hr1⟩ <;>
            rcases lexCmp_cons_lt.mp h2 with hl2 | ⟨he2, hr2⟩
          · exact lexCmp_cons_lt.mpr (Or.inl (hc.lt_trans hl1 hl2))
          · exact lexCmp_cons_lt.mpr (Or.inl (hc.lt_eq hl1 he2))
          · exact lexCmp_cons_lt.mpr (Or.inl (hc.eq_lt he1 hl2))
          · exact lexCmp_cons_lt.mpr (Or.inr ⟨hc.eq_trans he1 he2, ihlt hr1 hr2⟩)
        · intro h1 h2
          obtain ⟨he1, hr1⟩ := lexCmp_cons_eq.mp h1
          obtain ⟨he2, hr2⟩ := lexCmp_cons_eq.mp h2
          exact lexCmp_cons_eq.mpr ⟨hc.eq_trans he1 he2, iheq hr1 hr2⟩
        · intro h1 h2
          obtain ⟨he1, hr1⟩ := lexCmp_cons_eq.mp h1
          rcases lexCmp_cons_lt.mp h2 with hl2 | ⟨he2, hr2⟩
          · exact lexCmp_cons_lt.mpr (Or.inl (hc.eq_lt he1 hl2))
          · exact lexCmp_cons_lt.mpr (Or.inr ⟨hc.eq_trans he1 he2, ihel hr1 hr2⟩)
        · intro h1 h2
          obtain ⟨he2, hr2⟩ := lexCmp_cons_eq.mp h2
          rcases lexCmp_cons_lt.mp h1 with hl1 | ⟨he1, hr1⟩
          · exact lexCmp_cons_lt.mpr (Or.inl (hc.lt_eq hl1 he2))
          · exact lexCmp_cons_lt.mpr (Or.inr ⟨hc.eq_trans he1 he2, ihle hr1 hr2⟩)

theorem lexCmp_isCmp {α : Type} {c : α → α → Int} (hc : IsCmp c) :
    IsCmp (lexCmp c) := by
  refine ⟨lexCmp_neg hc.neg, ?_, ?_, ?_, ?_⟩ <;> intro a b d h1 h2
  · exact (lexCmp_trans_all hc a b d).1 h1 h2
  · exact (lexCmp_trans_all hc a b d).2.1 h1 h2
  · exact (lexCmp_trans_all hc a b d).2.2.1 h1 h2
  · exact (lexCmp_trans_all hc a b d).2.2.2 h1 h2

theorem charCmp_lt_iff {a b : Char} : charCmp a b < 0 ↔ a < b := by
  unfold charCmp
  by_cases h1 : a < b
  · simp [h1]
  · rw [if_neg h1]
    by_cases h2 : b < a <;> simp [h1, h2]

theorem charCmp_eq_iff {a b : Char} : charCmp a b = 0 ↔ a = b := by
  unfold charCmp
  by_cases h1 : a < b
  · simp only [if_pos h1]
    constructor
    · intro h; cases h
    · intro h; exact absurd h1 (by simp [h])
  · rw [if_neg h1]
    by_cases h2 : b < a
    · simp only [if_pos h2]
      constructor
      · intro h; cases h
      · intro h; exact absurd h2 (by simp [h])
    · simp only [if_neg h2]
      constructor
      · intro _; exact le_antisymm (le_of_not_lt h2) (le_of_not_lt h1)
      · intro _; trivial

theorem charCmp_isCmp : IsCmp charCmp := by
  constructor
  · intro a b
    rcases lt_trichotomy a b with h | h | h
    · have h2 : ¬ b < a := lt_asymm h
      simp [charCmp, h, h2, lt_irrefl]
    · subst h; simp [charCmp, lt_irrefl]
    · have h2 : ¬ a < b := lt_asymm h
      simp [charCmp, h, h2, lt_irrefl]
  · intro a b d h1 h2
    exact charCmp_lt_iff.mpr (lt_trans (charCmp_lt_iff.mp h1) (charCmp_lt_iff.mp h2))
  · intro a b d h1 h2
    exact charCmp_eq_iff.mpr ((charCmp_eq_iff.mp h1).trans (charCmp_eq_iff.mp h2))
  · intro a b d h1 h2
    exact charCmp_lt_iff.mpr ((charCmp_eq_iff.mp h1) ▸ charCmp_lt_iff.mp h2)
  · intro a b d h1 h2
    exact charCmp_lt_iff.mpr ((charCmp_eq_iff.mp h2) ▸ charCmp_lt_iff.mp h1)

theorem strCmp_isCmp : IsCmp strCmp := lexCmp_isCmp charCmp_isCmp

/-- Difference comparison of two naturals. -/
def natCmp (a b : Nat) : Int := (a : Int) - b

theorem natCmp_isCmp : IsCmp natCmp := by
  refine ⟨?_, ?_, ?_, ?_, ?_⟩ <;> intros <;> simp only [natCmp] at * <;> omega

theorem cmpCoreParts_nil_right : ∀ a : List Nat, cmpCoreParts [0] a = cmpZeroPad a := by
  intro a
  cases a with
  | nil => simp [cmpCoreParts, cmpZeroPad]
  | cons y ys =>
    simp only [cmpCoreParts, cmpZeroPad]
    by_cases hy : y = 0
    · subst hy; simp [cmpCoreParts]
    · rw [if_pos (by omega), if_pos (by omega)]; simp

theorem cmpCoreParts_pad_right : ∀ (a b : List Nat),
    cmpCoreParts (a ++ [0]) b = cmpCoreParts a b := by
  intro a
  induction a with
  | nil =>
    intro b
    simpa using cmpCoreParts_nil_right b
  | cons x xs ih =>
    intro b
    cases b with
    | nil =>
      simp only [List.cons_append, cmpCoreParts]
      by_cases hx : x = 0
      · subst hx; simp [ih []]
      · rw [if_pos (by omega), if_pos (by omega)]
    | cons y ys =>
      simp only [List.cons_append, cmpCoreParts]
      by_cases hxy : x = y
      · subst hxy; simp [ih ys]
      · rw [if_pos (by omega), if_pos (by omega)]

theorem cmpZeroPad_neg_nil : ∀ b : List Nat, cmpZeroPad b = -(cmpCoreParts b []) := by
  intro b
  induction b with
  | nil => simp [cmpZeroPad, cmpCoreParts]
  | cons y ys ih =>
    simp only [cmpZeroPad, cmpCoreParts]
    by_cases hy : y = 0
    · subst hy; simpa using ih
    · rw [if_pos (by omega), if_pos (by omega)]; omega

theorem cmpCoreParts_neg : ∀ a b : List Nat,
    cmpCoreParts a b = -(cmpCoreParts b a) := by
  intro a
  induction a with
  | nil =>
    intro b
    simpa [cmpCoreParts] using cmpZeroPad_neg_nil b
  | cons x xs ih =>
    intro b
    cases b with
    | nil =>
      have h := cmpZeroPad_neg_nil (x :: xs)
      have h2 : cmpCoreParts [] (x :: xs) = cmpZeroPad (x :: xs) := rfl
      rw [h2]
      omega
    | cons y ys =>
      simp only [cmpCoreParts]
      by_cases hxy : x = y
      · subst hxy; simpa using ih ys
      · rw [if_pos (by omega), if_pos (by omega)]; omega

theorem cmpCoreParts_pad_iter : ∀ (k : Nat) (a b : List Nat),
    cmpCoreParts (a ++ List.replicate k 0) b = cmpCoreParts a b := by
  intro k
  induction k with
  | zero => intro a b; simp
  | succ n ih =>
    intro a b
    have hsh : a ++ List.replicate (n + 1) 0 = (a ++ [0]) ++ List.replicate n 0 := by
      simp [List.replicate_succ]
    rw [hsh, ih (a ++ [0]) b, cmpCoreParts_pad_right]

/-- Pad a core-part list with zeros up to length `n`. -/
def padTo (n : Nat) (l : List Nat) : List Nat :=
  l ++ List.replicate (n - l.length) 0

theorem cmpCoreParts_padTo (n : Nat) (a b : List Nat) :
    cmpCoreParts (padTo n a) (padTo n b) = cmpCoreParts a b := by
  unfold padTo
  rw [cmpCoreParts_pad_iter]
  rw [cmpCoreParts_neg, cmpCoreParts_pad_iter, ← cmpCoreParts_neg]

theorem padTo_length {n : Nat} {l : List Nat} (h : l.length ≤ n) :
    (padTo n l).length = n := by
  simp [padTo]
  omega

theorem cmpCoreParts_eq_lexCmp : ∀ a b : List Nat, a.length = b.length →
    cmpCoreParts a b = lexCmp natCmp a b := by
  intro a
  induction a with
  | nil =>
    intro b hb
    cases b with
    | nil => rfl
    | cons y ys => simp at hb
  | cons x xs ih =>
    intro b hb
    cases b with
    | nil => simp at hb
    | cons y ys =>
      simp only [cmpCoreParts, lexCmp]
      by_cases hxy : x = y
      · subst hxy
        rw [if_neg (by omega), if_neg (by simp [natCmp])]
        exact ih ys (by simpa using hb)
      · rw [if_pos (by omega), if_pos (by simp [natCmp]; omega)]
        rfl

theorem cmpCoreParts_isCmp : IsCmp cmpCoreParts := by
  have hlex := lexCmp_isCmp natCmp_isCmp
  have key : ∀ a b : List Nat,
      cmpCoreParts a b =
        lexCmp natCmp (padTo (max a.length b.length) a) (padTo (max a.length b.length) b) := by
    intro a b
    rw [← cmpCoreParts_eq_lexCmp _ _
      (by rw [padTo_length (le_max_left _ _), padTo_length (le_max_right _ _)])]
    rw [cmpCoreParts_padTo]
  refine ⟨cmpCoreParts_neg, ?_, ?_, ?_, ?_⟩ <;> intro a b d h1 h2
  all_goals
    have hn := max a.length (max b.length d.length)
    set n := max a.length (max b.length d.length) with hndef
    have hla : a.length ≤ n := le_max_left _ _
    have hlb : b.length ≤ n := le_trans (le_max_left _ _) (le_max_right _ _)
    have hld : d.length ≤ n := le_trans (le_max_right _ _) (le_max_right _ _)
    have ea : cmpCoreParts a b = lexCmp natCmp (padTo n a) (padTo n b) := by
      rw [← cmpCoreParts_eq_lexCmp _ _ (by rw [padTo_length hla, padTo_length hlb])]
      rw [cmpCoreParts_padTo]
    have eb : cmpCoreParts b d = lexCmp natCmp (padTo n b) (padTo n d) := by
      rw [← cmpCoreParts_eq_lexCmp _ _ (by rw [padTo_length hlb, padTo_length hld])]
      rw [cmpCoreParts_padTo]
    have ed : cmpCoreParts a d = lexCmp natCmp (padTo n a) (padTo n d) := by
      rw [← cmpCoreParts_eq_lexCmp _ _ (by rw [padTo_length hla, padTo_length hld])]
      rw [cmpCoreParts_padTo]
    rw [ea] at h1
    rw [eb] at h2
    rw [ed]
  · exact hlex.lt_trans h1 h2
  · exact hlex.eq_trans h1 h2
  · exact hlex.eq_lt h1 h2
  · exact hlex.lt_eq h1 h2

theorem cmpIdPart_tt {a b : JStr} (ha : isAllDigits a = true)
    (hb : isAllDigits b = true) :
    cmpIdPart a b = (natOfDigits a : Int) - natOfDigits b := by
  simp [cmpIdPart, ha, hb]

theorem cmpIdPart_tf {a b : JStr} (ha : isAllDigits a = true)
    (hb : isAllDigits b = false) : cmpIdPart a b = -1 := by
  simp [cmpIdPart, ha, hb]

theorem cmpIdPart_ft {a b : JStr} (ha : isAllDigits a = false)
    (hb : isAllDigits b = true) : cmpIdPart a b = 1 := by
  simp [cmpIdPart, ha, hb]

theorem cmpIdPart_ff {a b : JStr} (ha : isAllDigits a = false)
    (hb : isAllDigits b = false) : cmpIdPart a b = strCmp a b := by
  simp [cmpIdPart, ha, hb]

theorem cmpIdPart_isCmp : IsCmp cmpIdPart := by
  have hs := strCmp_isCmp
  have hflag : ∀ x : JStr, isAllDigits x = true ∨ isAllDigits x = false := by
    intro x; cases isAllDigits x <;> simp
  constructor
  · intro a b
    rcases hflag a with ha | ha <;> rcases hflag b with hb | hb
    · rw [cmpIdPart_tt ha hb, cmpIdPart_tt hb ha]; omega
    · rw [cmpIdPart_tf ha hb, cmpIdPart_ft hb ha]
    · rw [cmpIdPart_ft ha hb, cmpIdPart_tf hb ha]; omega
    · rw [cmpIdPart_ff ha hb, cmpIdPart_ff hb ha]; exact hs.neg a b
  · intro a b d h1 h2
    rcases hflag a with ha | ha <;> rcases hflag b with hb | hb <;>
      rcases hflag d with hd | hd
    · rw [cmpIdPart_tt ha hb] at h1; rw [cmpIdPart_tt hb hd] at h2
      rw [cmpIdPart_tt ha hd]; omega
    · rw [cmpIdPart_tf ha hd]; omega
    · rw [cmpIdPart_ft hb hd] at h2; omega
    · rw [cmpIdPart_tf ha hd]; omega
    · rw [cmpIdPart_ft ha hb] at h1; omega
    · rw [cmpIdPart_ft ha hb] at h1; omega
    · rw [cmpIdPart_ft hb hd] at h2; omega
    · rw [cmpIdPart_ff ha hb] at h1; rw [cmpIdPart_ff hb hd] at h2
      rw [cmpIdPart_ff ha hd]; exact hs.lt_trans h1 h2
  · intro a b d h1 h2
    rcases hflag a with ha | ha <;> rcases hflag b with hb | hb <;>
      rcases hflag d with hd | hd
    · rw [cmpIdPart_tt ha hb] at h1; rw [cmpIdPart_tt hb hd] at h2
      rw [cmpIdPart_tt ha hd]; omega
    · rw [cmpIdPart_tf hb hd] at h2; omega
    · rw [cmpIdPart_tf ha hb] at h1; omega
    · rw [cmpIdPart_tf ha hb] at h1; omega
    · rw [cmpIdPart_ft ha hb] at h1; omega
    · rw [cmpIdPart_ft ha hb] at h1; omega
    · rw [cmpIdPart_ft hb hd] at h2; omega
    · rw [cmpIdPart_ff ha hb] at h1; rw [cmpIdPart_ff hb hd] at h2
      rw [cmpIdPart_ff ha hd]; exact hs.eq_trans h1 h2
  · intro a b d h1 h2
    rcases hflag a with ha | ha <;> rcases hflag b with hb | hb <;>
      rcases hflag d with hd | hd
    · rw [cmpIdPart_tt ha hb] at h1; rw [cmpIdPart_tt hb hd] at h2
      rw [cmpIdPart_tt ha hd]; omega
    · rw [cmpIdPart_tf ha hd]; omega
    · rw [cmpIdPart_tf ha hb] at h1; omega
    · rw [cmpIdPart_tf ha hb] at h1; omega
    · rw [cmpIdPart_ft ha hb] at h1; omega
    · rw [cmpIdPart_ft ha hb] at h1; omega
    · rw [cmpIdPart_ft hb hd] at h2; omega
    · rw [cmpIdPart_ff ha hb] at h1; rw [cmpIdPart_ff hb hd] at h2
      rw [cmpIdPart_ff ha hd]; exact hs.eq_lt h1 h2
  · intro a b d h1 h2
    rcases hflag a with ha | ha <;> rcases hflag b with hb | hb <;>
      rcases hflag d with hd | hd
    · rw [cmpIdPart_tt ha hb] at h1; rw [cmpIdPart_tt hb hd] at h2
      rw [cmpIdPart_tt ha hd]; omega
    · rw [cmpIdPart_tf hb hd] at h2; omega
    · rw [cmpIdPart_ft hb hd] at h2; omega
    · rw [cmpIdPart_tf ha hd]; omega
    · rw [cmpIdPart_ft ha hb] at h1; omega
    · rw [cmpIdPart_ft ha hb] at h1; omega
    · rw [cmpIdPart_ft hb hd] at h2; omega
    · rw [cmpIdPart_ff ha hb] at h1; rw [cmpIdPart_ff hb hd] at h2
      rw [cmpIdPart_ff ha hd]; exact hs.lt_eq h1 h2

theorem cmpIdList_isCmp : IsCmp cmpIdList := lexCmp_isCmp cmpIdPart_isCmp

/-- Lift a comparator to options, a missing value sorting last. -/
def optCmpNoneTop {α : Type} (c : α → α → Int) :
    Option α → Option α → Int
  | none, none => 0
  | none, some _ => 1
  | some _, none => -1
  | some x, some y => c x y

theorem optCmpNoneTop_isCmp {α : Type} {c : α → α → Int} (hc : IsCmp c) :
    IsCmp (optCmpNoneTop c) := by
  constructor
  · intro a b
    cases a <;> cases b <;> simp [optCmpNoneTop]
    exact hc.neg _ _
  · intro a b d h1 h2
    cases a <;> cases b <;> cases d <;> simp [optCmpNoneTop] at h1 h2 ⊢
    exact hc.lt_trans h1 h2
  · intro a b d h1 h2
    cases a <;> cases b <;> cases d <;> simp [optCmpNoneTop] at h1 h2 ⊢
    exact hc.eq_trans h1 h2
  · intro a b d h1 h2
    cases a <;> cases b <;> cases d <;> simp [optCmpNoneTop] at h1 h2 ⊢
    exact hc.eq_lt h1 h2
  · intro a b d h1 h2
    cases a <;> cases b <;> cases d <;> simp [optCmpNoneTop] at h1 h2 ⊢
    exact hc.lt_eq h1 h2

/-- Chain two comparators lexicographically. -/
def cmpThen {α : Type} (c1 c2 : α → α → Int) (a b : α) : Int :=
  if c1 a b ≠ 0 then c1 a b else c2 a b

theorem cmpThen_lt {α : Type} {c1 c2 : α → α → Int} {a b : α} :
    cmpThen c1 c2 a b < 0 ↔ (c1 a b < 0 ∨ (c1 a b = 0 ∧ c2 a b < 0)) := by
  simp only [cmpThen]
  by_cases h : c1 a b = 0
  · simp [h]
  · rw [if_pos (by simpa using h)]
    constructor
    · intro hlt; exact Or.inl hlt
    · rintro (hlt | ⟨he, _⟩)
      · exact hlt
      · exact absurd he h

theorem cmpThen_eq {α : Type} {c1 c2 : α → α → Int} {a b : α} :
    cmpThen c1 c2 a b = 0 ↔ (c1 a b = 0 ∧ c2 a b = 0) := by
  simp only [cmpThen]
  by_cases h : c1 a b = 0
  · simp [h]
  · rw [if_pos (by simpa using h)]
    constructor
    · intro he; exact absurd he h
    · rintro ⟨he, _⟩; exact absurd he h

theorem cmpThen_isCmp {α : Type} {c1 c2 : α → α → Int}
    (h1 : IsCmp c1) (h2 : IsCmp c2) : IsCmp (cmpThen c1 c2) := by
  constructor
  · intro a b
    simp only [cmpThen]
    by_cases h : c1 a b = 0
    · have h' : c1 b a = 0 := by have := h1.neg a b; omega
      simp [h, h', h2.neg a b]
    · have h' : ¬ c1 b a = 0 := by have := h1.neg a b; omega
      rw [if_pos (by simpa using h), if_pos (by simpa using h')]
      exact h1.neg a b
  · intro a b d ha hb
    rcases cmpThen_lt.mp ha with hl1 | ⟨he1, hr1⟩ <;>
      rcases cmpThen_lt.mp hb with hl2 | ⟨he2, hr2⟩
    · exact cmpThen_lt.mpr (Or.inl (h1.lt_trans hl1 hl2))
    · exact cmpThen_lt.mpr (Or.inl (h1.lt_eq hl1 he2))
    · exact cmpThen_lt.mpr (Or.inl (h1.eq_lt he1 hl2))
    · exact cmpThen_lt.mpr (Or.inr ⟨h1.eq_trans he1 he2, h2.lt_trans hr1 hr2⟩)
  · intro a b d ha hb
    obtain ⟨he1, hr1⟩ := cmpThen_eq.mp ha
    obtain ⟨he2, hr2⟩ := cmpThen_eq.mp hb
    exact cmpThen_eq.mpr ⟨h1.eq_trans he1 he2, h2.eq_trans hr1 hr2⟩
  · intro a b d ha hb
    obtain ⟨he1, hr1⟩ := cmpThen_eq.mp ha
    rcases cmpThen_lt.mp hb with hl2 | ⟨he2, hr2⟩
    · exact cmpThen_lt.mpr (Or.inl (h1.eq_lt he1 hl2))
    · exact cmpThen_lt.mpr (Or.inr ⟨h1.eq_trans he1 he2, h2.eq_lt hr1 hr2⟩)
  · intro a b d ha hb
    obtain ⟨he2, hr2⟩ := cmpThen_eq.mp hb
    rcases cmpThen_lt.mp ha with hl1 | ⟨he1, hr1⟩
    · exact cmpThen_lt.mpr (Or.inl (h1.lt_eq hl1 he2))
    · exact cmpThen_lt.mpr (Or.inr ⟨h1.eq_trans he1 he2, h2.lt_eq hr1 hr2⟩)

theorem pullback_isCmp {α β : Type} {c : α → α → Int} (f : β → α)
    (hc : IsCmp c) : IsCmp (fun x y => c (f x) (f y)) := by
  constructor
  · intro a b; exact hc.neg _ _
  · intro a b d h1 h2; exact hc.lt_trans h1 h2
  · intro a b d h1 h2; exact hc.eq_trans h1 h2
  · intro a b d h1 h2; exact hc.eq_lt h1 h2
  · intro a b d h1 h2; exact hc.lt_eq h1 h2

/-- The prerelease identifiers of a version when its prerelease segment is
truthy. -/
def preKey (a : JStr) : Option (List JStr) :=
  match preRaw a with
  | some p => if p = [] then none else some (splitOnCharL '.' p)
  | none => none

/-- `compareNuGetVersions` as a lexicographic chain of three pulled-back
comparators. -/
def nugetKeyCmp : JStr → JStr → Int :=
  cmpThen (fun a b => cmpCoreParts (coreParts (coreOf a)) (coreParts (coreOf b)))
    (cmpThen (fun a b => optCmpNoneTop cmpIdList (preKey a) (preKey b))
      (fun a b => strCmp (metaOf a) (metaOf b)))

theorem compareNuGetVersions_eq_keyCmp (a b : JStr) :
    compareNuGetVersions a b = nugetKeyCmp a b := by
  unfold compareNuGetVersions nugetKeyCmp cmpThen
  by_cases hcore :
      cmpCoreParts (coreParts (coreOf a)) (coreParts (coreOf b)) = 0
  · simp only [hcore, ne_eq, not_true_eq_false, if_false]
    cases hpa : preRaw a with
    | none =>
      cases hpb : preRaw b with
      | none => simp [jsTruthy, hpa, hpb, preKey, optCmpNoneTop]
      | some q =>
        by_cases hq : q = []
        · subst hq; simp [jsTruthy, hpa, hpb, preKey, optCmpNoneTop]
        · simp [jsTruthy, hpa, hpb, hq, preKey, optCmpNoneTop]
    | some p =>
      by_cases hp : p = []
      · subst hp
        cases hpb : preRaw b with
        | none => simp [jsTruthy, hpa, hpb, preKey, optCmpNoneTop]
        | some q =>
          by_cases hq : q = []
          · subst hq; simp [jsTruthy, hpa, hpb, preKey, optCmpNoneTop]
          · simp [jsTruthy, hpa, hpb, hq, preKey, optCmpNoneTop]
      · cases hpb : preRaw b with
        | none => simp [jsTruthy, hpa, hpb, hp, preKey, optCmpNoneTop]
        | some q =>
          by_cases hq : q = []
          · subst hq; simp [jsTruthy, hpa, hpb, hp, preKey, optCmpNoneTop]
          · simp [jsTruthy, hpa, hpb, hp, hq, preKey, optCmpNoneTop,
              comparePrereleaseIdentifiers, cmpIdList]
  · simp only [ne_eq, hcore, not_false_eq_true, if_true]

theorem isCmp_of_ext {α : Type} {c c' : α → α → Int}
    (hext : ∀ a b, c a b = c' a b) (hc : IsCmp c') : IsCmp c := by
  constructor
  · intro a b; rw [hext, hext]; exact hc.neg a b
  · intro a b d h1 h2
    rw [hext] at h1 h2 ⊢
    exact hc.lt_trans h1 h2
  · intro a b d h1 h2
    rw [hext] at h1 h2 ⊢
    exact hc.eq_trans h1 h2
  · intro a b d h1 h2
    rw [hext] at h1 h2 ⊢
    exact hc.eq_lt h1 h2
  · intro a b d h1 h2
    rw [hext] at h1 h2 ⊢
    exact hc.lt_eq h1 h2

theorem compareNuGetVersions_isCmp : IsCmp compareNuGetVersions :=
  isCmp_of_ext compareNuGetVersions_eq_keyCmp
    (cmpThen_isCmp
      (pullback_isCmp (fun a => coreParts (coreOf a)) cmpCoreParts_isCmp)
      (cmpThen_isCmp
        (pullback_isCmp preKey (optCmpNoneTop_isCmp cmpIdList_isCmp))
        (pullback_isCmp metaOf strCmp_isCmp)))

theorem reduceLatest_mem (h : JStr) (t : List JStr) :
    reduceLatest h t ∈ h :: t := by
  induction t generalizing h with
  | nil => simp [reduceLatest]
  | cons c t' ih =>
    have step : reduceLatest h (c :: t') =
        reduceLatest (if compareNuGetVersions c h > 0 then c else h) t' := rfl
    rw [step]
    by_cases hc : compareNuGetVersions c h > 0
    · rw [if_pos hc]
      rcases List.mem_cons.mp (ih c) with heq | hmem
      · rw [heq]
        exact List.mem_cons_of_mem h (List.mem_cons_self c t')
      · exact List.mem_cons_of_mem h (List.mem_cons_of_mem c hmem)
    · rw [if_neg hc]
      rcases List.mem_cons.mp (ih h) with heq | hmem
      · rw [heq]
        exact List.mem_cons_self h _
      · exact List.mem_cons_of_mem h (List.mem_cons_of_mem c hmem)

theorem reduceLatest_max (h : JStr) (t : List JStr) :
    ∀ x ∈ h :: t, compareNuGetVersions x (reduceLatest h t) ≤ 0 := by
  have hcmp := compareNuGetVersions_isCmp
  induction t generalizing h with
  | nil =>
    intro x hx
    simp only [List.mem_singleton] at hx
    subst hx
    have hself := hcmp.self_eq x
    show compareNuGetVersions x (reduceLatest x []) ≤ 0
    simp only [reduceLatest, List.foldl_nil]
    omega
  | cons c t' ih =>
    intro x hx
    have step : reduceLatest h (c :: t') =
        reduceLatest (if compareNuGetVersions c h > 0 then c else h) t' := rfl
    rw [step]
    by_cases hc : compareNuGetVersions c h > 0
    · rw [if_pos hc]
      rcases List.mem_cons.mp hx with heq | hx'
      · have h1 : compareNuGetVersions x c < 0 := by
          rw [heq]
          have := hcmp.neg c h
          have := hcmp.neg h c
          omega
        have h2 : compareNuGetVersions c (reduceLatest c t') ≤ 0 :=
          ih c c (List.mem_cons_self c t')
        exact hcmp.le_trans (le_of_lt h1) h2
      · exact ih c x hx'
    · rw [if_neg hc]
      rcases List.mem_cons.mp hx with heq | hx'
      · rw [heq]
        exact ih h h (List.mem_cons_self h t')
      · rcases List.mem_cons.mp hx' with heq | hx''
        · have h1 : compareNuGetVersions x h ≤ 0 := by rw [heq]; omega
          exact hcmp.le_trans h1 (ih h h (List.mem_cons_self h t'))
        · exact ih h x (List.mem_cons_of_mem h hx'')

/-- Two-version registration index, stable `1.0.0` plus prerelease
`2.0.0-beta`. -/
def nugetDemoLeavesA : List RegistrationLeaf :=
  [⟨some ⟨some (js "1.0.0"), none, none⟩⟩,
   ⟨some ⟨some (js "2.0.0-beta"), none, none⟩⟩]

/-- Two-version registration index, stable `4.3.1` plus prerelease
`4.3.2-dev-02419`. -/
def nugetDemoLeavesB : List RegistrationLeaf :=
  [⟨some ⟨some (js "4.3.1"), none, none⟩⟩,
   ⟨some ⟨some (js "4.3.2-dev-02419"), none, none⟩⟩]

/-- Claim C2: with no requested version, `resolveVersionFromLeaves`
partitions the published versions into stable and prerelease and returns a
maximum of the stable ones under `compareNuGetVersions`; with the
allow-prerelease flag it returns a maximum of the entire published set; in
particular `["1.0.0", "2.0.0-beta"]` resolves to `1.0.0`, and
`["4.3.1", "4.3.2-dev-02419"]` resolves to `4.3.1` by default and to
`4.3.2-dev-02419` with prereleases allowed. -/
theorem claim_C2 :
    (∀ (leaves : List RegistrationLeaf) (name r : JStr),
      resolveVersionFromLeaves leaves name none false = Except.ok r →
        r ∈ (versionsOfLeaves leaves).filter (fun w => !isPrereleaseVersion w) ∧
        ∀ v ∈ (versionsOfLeaves leaves).filter (fun w => !isPrereleaseVersion w),
          compareNuGetVersions v r ≤ 0) ∧
    (∀ (leaves : List RegistrationLeaf) (name r : JStr),
      resolveVersionFromLeaves leaves name none true = Except.ok r →
        r ∈ versionsOfLeaves leaves ∧
        ∀ v ∈ versionsOfLeaves leaves, compareNuGetVersions v r ≤ 0) ∧
    resolveVersionFromLeaves nugetDemoLeavesA (js "pkg") none false =
      Except.ok (js "1.0.0") ∧
    resolveVersionFromLeaves nugetDemoLeavesB (js "pkg") none false =
      Except.ok (js "4.3.1") ∧
    resolveVersionFromLeaves nugetDemoLeavesB (js "pkg") none true =
      Except.ok (js "4.3.2-dev-02419") := by
  refine ⟨?_, ?_, by decide, by decide, by decide⟩
  · intro leaves name r hr
    unfold resolveVersionFromLeaves at hr
    rw [if_neg (by simp [jsTruthy])] at hr
    split at hr
    next hvs => cases hr
    next v vs hvs =>
      rw [if_neg (by simp)] at hr
      split at hr
      next hst => cases hr
      next s ss hst =>
        simp only [Except.ok.injEq] at hr
        subst hr
        rw [hvs, hst]
        exact ⟨reduceLatest_mem s ss, fun w hw => reduceLatest_max s ss w hw⟩
  · intro leaves name r hr
    unfold resolveVersionFromLeaves at hr
    rw [if_neg (by simp [jsTruthy])] at hr
    split at hr
    next hvs => cases hr
    next v vs hvs =>
      rw [if_pos rfl] at hr
      simp only [Except.ok.injEq] at hr
      subst hr
      rw [hvs]
      exact ⟨reduceLatest_mem v vs, fun w hw => reduceLatest_max v vs w hw⟩

/-- Claim C2, witness: the general stable-maximum statement applied to the
concrete `["4.3.1", "4.3.2-dev-02419"]` index. -/
theorem claim_C2_witness :
    js "4.3.1" ∈
      (versionsOfLeaves nugetDemoLeavesB).filter (fun w => !isPrereleaseVersion w) ∧
    ∀ v ∈ (versionsOfLeaves nugetDemoLeavesB).filter (fun w => !isPrereleaseVersion w),
      compareNuGetVersions v (js "4.3.1") ≤ 0 :=
  claim_C2.1 nugetDemoLeavesB (js "pkg") (js "4.3.1") (by decide)

theorem head?_mem_of_eq {α : Type} {l : List α} {a : α} (h : l.head? = some a) :
    a ∈ l := by
  cases l with
  | nil => cases h
  | cons x xs =>
    injection h with h'
    subst h'
    exact List.mem_cons_self x xs

theorem lookupA_mem {α : Type} (l : List (JStr × α)) (k : JStr)
    (h : (lookupA l k).isNone = false) : k ∈ l.map Prod.fst := by
  unfold lookupA at h
  cases hf : l.find? (fun p => p.1 = k) with
  | none => rw [hf] at h; cases h
  | some p =>
    have hp := List.find?_some hf
    have hmem := List.mem_of_find?_eq_some hf
    simp only [decide_eq_true_eq] at hp
    exact hp ▸ List.mem_map_of_mem Prod.fst hmem

theorem insertJS_mem {α : Type} (le : α → α → Bool) (y : α) :
    ∀ (acc : List α) (x : α), x ∈ insertJS le y acc → x = y ∨ x ∈ acc := by
  intro acc
  induction acc with
  | nil =>
    intro x hx
    simp only [insertJS, List.mem_singleton] at hx
    exact Or.inl hx
  | cons z zs ih =>
    intro x hx
    simp only [insertJS] at hx
    by_cases h : le z y = true
    · rw [if_pos h] at hx
      rcases List.mem_cons.mp hx with heq | hx'
      · exact Or.inr (heq ▸ List.mem_cons_self z zs)
      · rcases ih x hx' with h1 | h2
        · exact Or.inl h1
        · exact Or.inr (List.mem_cons_of_mem z h2)
    · rw [if_neg h] at hx
      rcases List.mem_cons.mp hx with heq | hx'
      · exact Or.inl heq
      · exact Or.inr hx'

theorem sortJS_mem {α : Type} (cmp : α → α → Int) (l : List α) :
    ∀ x ∈ sortJS cmp l, x ∈ l := by
  unfold sortJS
  suffices hgen : ∀ (l acc : List α) (x : α),
      x ∈ l.foldl (fun acc x => insertJS (fun a b => cmp a b ≤ 0) x acc) acc →
      x ∈ acc ∨ x ∈ l by
    intro x hx
    rcases hgen l [] x hx with h1 | h2
    · cases h1
    · exact h2
  intro l
  induction l with
  | nil => intro acc x hx; exact Or.inl hx
  | cons c cs ih =>
    intro acc x hx
    simp only [List.foldl_cons] at hx
    rcases ih (insertJS (fun a b => cmp a b ≤ 0) c acc) x hx with h1 | h2
    · rcases insertJS_mem (fun a b => cmp a b ≤ 0) c acc x h1 with he | ha
      · exact Or.inr (he ▸ List.mem_cons_self c cs)
      · exact Or.inl ha
    · exact Or.inr (List.mem_cons_of_mem c h2)

theorem packagistSelectVersion_mem (versions : List PackagistVersion)
    (version : Option JStr) (w : PackagistVersion)
    (h : packagistSelectVersion versions version = some w) : w ∈ versions := by
  simp only [packagistSelectVersion] at h
  by_cases ht : jsTruthy version = true
  · rw [if_pos ht] at h
    split at h
    next w1 hf =>
      injection h with h'
      subst h'
      exact List.mem_of_find?_eq_some hf
    next hf =>
      split at h
      next w2 hg =>
        injection h with h'
        subst h'
        exact List.mem_of_find?_eq_some hg
      next hg => exact head?_mem_of_eq h
  · rw [if_neg ht] at h
    split at h
    next w1 hf =>
      injection h with h'
      subst h'
      have h1 : w1 ∈ packagistAvailableVersions versions false := head?_mem_of_eq hf
      simp only [packagistAvailableVersions] at h1
      have h2 := sortJS_mem _ _ w1 h1
      exact List.mem_of_mem_filter h2
    next hf => exact head?_mem_of_eq h

theorem resolveNpmPackage_mem (name : JStr) (version : Option JStr)
    (info : NpmRegistryResponse) (pkg : ResolvedPackage)
    (h : resolveNpmPackage name version info = Except.ok pkg) :
    pkg.version ∈ info.versions.map Prod.fst := by
  simp only [resolveNpmPackage] at h
  by_cases hc : (lookupA info.versions (jsOr version (getLatestVersion info))).isNone = true
  · rw [if_pos hc] at h
    exact Except.noConfusion h
  · rw [if_neg hc] at h
    split at h
    next hrepo => exact Except.noConfusion h
    next url dir hrepo =>
      injection h with h'
      subst h'
      show jsOr version (getLatestVersion info) ∈ info.versions.map Prod.fst
      have hfalse : (lookupA info.versions (jsOr version (getLatestVersion info))).isNone =
          false := by
        cases hx : (lookupA info.versions (jsOr version (getLatestVersion info))).isNone
        · rfl
        · exact absurd hx hc
      exact lookupA_mem _ _ hfalse

theorem resolvePackagistPackage_mem (name : JStr) (version : Option JStr)
    (versions : List PackagistVersion) (pkg : ResolvedPackage)
    (h : resolvePackagistPackage name version versions = Except.ok pkg) :
    pkg.version ∈ versions.map (·.version) := by
  simp only [resolvePackagistPackage] at h
  by_cases hnil : versions = []
  · rw [if_pos hnil] at h
    exact Except.noConfusion h
  · rw [if_neg hnil] at h
    split at h
    next hsel => exact Except.noConfusion h
    next rv hsel =>
      split at h
      next hrepo => exact Except.noConfusion h
      next repoUrl hrepo =>
        injection h with h'
        subst h'
        show rv.version ∈ versions.map (·.version)
        exact List.mem_map_of_mem _ (packagistSelectVersion_mem versions version rv hsel)

theorem resolveVersionFromLeaves_mem (leaves : List RegistrationLeaf)
    (name : JStr) (req : Option JStr) (allow : Bool) (r : JStr)
    (h : resolveVersionFromLeaves leaves name req allow = Except.ok r) :
    r ∈ versionsOfLeaves leaves := by
  simp only [resolveVersionFromLeaves] at h
  by_cases ht : jsTruthy req = true
  · rw [if_pos ht] at h
    split at h
    next leaf hf =>
      split at h
      next v hv =>
        by_cases he : v = []
        · rw [if_pos he] at h
          exact Except.noConfusion h
        · rw [if_neg he] at h
          injection h with h'
          subst h'
          refine List.mem_filterMap.mpr ⟨leaf, List.mem_of_find?_eq_some hf, ?_⟩
          simp only [hv]
          simp only [if_neg he]
      next hv => exact Except.noConfusion h
    next hf => exact Except.noConfusion h
  · rw [if_neg ht] at h
    split at h
    next hvs => exact Except.noConfusion h
    next v vs hvs =>
      by_cases ha : allow = true
      · rw [if_pos ha] at h
        injection h with h'
        subst h'
        rw [hvs]
        exact reduceLatest_mem v vs
      · rw [if_neg ha] at h
        split at h
        next hst => exact Except.noConfusion h
        next s ss hst =>
          injection h with h'
          subst h'
          rw [hvs]
          have hm : reduceLatest s ss ∈ s :: ss := reduceLatest_mem s ss
          rw [← hst] at hm
          exact List.mem_of_mem_filter hm

theorem resolveCrate_mem (name : JStr) (version : Option JStr)
    (info : CrateResponse) (versionKnown : JStr → Bool) (pkg : ResolvedPackage)
    (hmax : info.crate.max_version ∈ info.versions.map (·.num))
    (hex : ∀ v, versionKnown v = true → v ∈ info.versions.map (·.num))
    (h : resolveCrate name version info versionKnown = Except.ok pkg) :
    pkg.version ∈ info.versions.map (·.num) := by
  simp only [resolveCrate] at h
  by_cases hc : (jsTruthy version && !versionKnown (version.getD [])) = true
  · rw [if_pos hc] at h
    exact Except.noConfusion h
  · rw [if_neg hc] at h
    split at h
    next hrepo => exact Except.noConfusion h
    next repoUrl hrepo =>
      injection h with h'
      subst h'
      show jsOr version info.crate.max_version ∈ info.versions.map (·.num)
      cases version with
      | none => exact hmax
      | some v =>
        by_cases hv : v = []
        · simp only [jsOr, if_pos hv]
          exact hmax
        · simp only [jsOr, if_neg hv]
          have h1 : jsTruthy (some v) = true := by
            cases v with
            | nil => exact absurd rfl hv
            | cons c cs => rfl
          cases hvx : versionKnown v with
          | false =>
            exfalso
            apply hc
            show (jsTruthy (some v) && !versionKnown v) = true
            rw [h1, hvx]
            rfl
          | true => exact hex v hvx

theorem resolveMavenPackage_mem (g a : JStr) (version : Option JStr)
    (published : List JStr) (latest : Option JStr) (pom : Option JStr)
    (pkg : ResolvedPackage)
    (hl : ∀ l, latest = some l → l ∈ published)
    (h : resolveMavenPackage g a version published latest pom = Except.ok pkg) :
    pkg.version ∈ published := by
  simp only [resolveMavenPackage] at h
  by_cases ht : jsTruthy version = true
  · rw [if_pos ht] at h
    by_cases hcont : published.contains (version.getD []) = true
    · rw [if_pos hcont] at h
      have hmem : (version.getD []) ∈ published := by simpa using hcont
      split at h
      next hscm => exact Except.noConfusion h
      next scm hscm =>
        injection hscm with hs
        split at h
        next hinfo => exact Except.noConfusion h
        next scmObj hinfo =>
          injection h with h'
          subst h'
          show scm ∈ published
          rw [← hs]
          exact hmem
    · rw [if_neg hcont] at h
      exact Except.noConfusion h
  · rw [if_neg ht] at h
    cases hlat : latest with
    | none =>
      rw [hlat] at h
      exact Except.noConfusion h
    | some l =>
      rw [hlat] at h
      split at h
      next hscm => exact Except.noConfusion h
      next scm hscm =>
        injection hscm with hs
        split at h
        next hinfo => exact Except.noConfusion h
        next scmObj hinfo =>
          injection h with h'
          subst h'
          show scm ∈ published
          rw [← hs]
          exact hl l hlat

theorem resolvePyPIPackage_mem (name : JStr) (version : Option JStr)
    (resp fullResp : PyPIResponse) (pkg : ResolvedPackage)
    (hv : resp.info.version ∈ resp.releases.map Prod.fst)
    (h : resolvePyPIPackage name version resp fullResp = Except.ok pkg) :
    pkg.version ∈ resp.releases.map Prod.fst := by
  simp only [resolvePyPIPackage] at h
  split at h
  next hrepo => exact Except.noConfusion h
  next repoUrl hrepo =>
    injection h with h'
    subst h'
    exact hv

/-- Claim C1, counterexample: the crates resolver performs no membership
check on `max_version`; on a response whose version list is `["1.0.0"]` but
whose `crate.max_version` field reads `"2.0.0"`, it returns version
`"2.0.0"`, which is not in the reported published set. -/
theorem claim_C1_counterexample :
    (resolveCrate (js "demo") none
        ⟨⟨js "demo", js "2.0.0", some (js "https://github.com/a/b"), none⟩,
          [⟨js "1.0.0", false, 0⟩]⟩ (fun _ => false)).map (·.version) =
      Except.ok (js "2.0.0") ∧
    ¬ js "2.0.0" ∈ ([⟨js "1.0.0", false, 0⟩] : List CrateVersion).map (·.num) := by
  decide

/-- Claim C1, amended: membership of the returned version in the reported
published set holds unconditionally for npm (the `versions` object keys),
Packagist (the version entries) and NuGet (the registration-leaf
versions); for crates, Maven and PyPI it holds only under trust
hypotheses on fields the code never cross-checks (`max_version` and the
per-version 404 probe for crates, the search endpoint's `latestVersion`
for Maven, and the targeted response's `info.version` for PyPI). -/
theorem claim_C1_amended :
    (∀ (name : JStr) (version : Option JStr) (info : NpmRegistryResponse)
        (pkg : ResolvedPackage),
      resolveNpmPackage name version info = Except.ok pkg →
      pkg.version ∈ info.versions.map Prod.fst) ∧
    (∀ (name : JStr) (version : Option JStr) (versions : List PackagistVersion)
        (pkg : ResolvedPackage),
      resolvePackagistPackage name version versions = Except.ok pkg →
      pkg.version ∈ versions.map (·.version)) ∧
    (∀ (leaves : List RegistrationLeaf) (name : JStr) (req : Option JStr)
        (allow : Bool) (r : JStr),
      resolveVersionFromLeaves leaves name req allow = Except.ok r →
      r ∈ versionsOfLeaves leaves) ∧
    (∀ (name : JStr) (version : Option JStr) (info : CrateResponse)
        (versionKnown : JStr → Bool) (pkg : ResolvedPackage),
      info.crate.max_version ∈ info.versions.map (·.num) →
      (∀ v, versionKnown v = true → v ∈ info.versions.map (·.num)) →
      resolveCrate name version info versionKnown = Except.ok pkg →
      pkg.version ∈ info.versions.map (·.num)) ∧
    (∀ (g a : JStr) (version : Option JStr) (published : List JStr)
        (latest : Option JStr) (pom : Option JStr) (pkg : ResolvedPackage),
      (∀ l, latest = some l → l ∈ published) →
      resolveMavenPackage g a version published latest pom = Except.ok pkg →
      pkg.version ∈ published) ∧
    (∀ (name : JStr) (version : Option JStr) (resp fullResp : PyPIResponse)
        (pkg : ResolvedPackage),
      resp.info.version ∈ resp.releases.map Prod.fst →
      resolvePyPIPackage name version resp fullResp = Except.ok pkg →
      pkg.version ∈ resp.releases.map Prod.fst) :=
  ⟨fun name version info pkg h => resolveNpmPackage_mem name version info pkg h,
   fun name version versions pkg h =>
     resolvePackagistPackage_mem name version versions pkg h,
   fun leaves name req allow r h =>
     resolveVersionFromLeaves_mem leaves name req allow r h,
   fun name version info vk pkg hmax hex h =>
     resolveCrate_mem name version info vk pkg hmax hex h,
   fun g a version published latest pom pkg hl h =>
     resolveMavenPackage_mem g a version published latest pom pkg hl h,
   fun name version resp fullResp pkg hv h =>
     resolvePyPIPackage_mem name version resp fullResp pkg hv h⟩

/-- The concrete npm registry response of the membership witness. -/
def npmDemoInfo : NpmRegistryResponse :=
  ⟨[(js "1.0.0", ⟨none⟩)], js "1.0.0",
   some ⟨some (js "https://example.com/foo.git"), none⟩⟩

/-- The package the npm resolver returns on `npmDemoInfo`. -/
def npmDemoPkg : ResolvedPackage :=
  ⟨js "npm", js "zz", js "1.0.0", js "https://example.com/foo", none, js "v1.0.0"⟩

/-- The concrete Packagist version list of the membership witness. -/
def packagistDemoVersions : List PackagistVersion :=
  [⟨js "2.5.0", js "2.5.0.0", some ⟨js "git", js "https://github.com/x/y", js "r"⟩,
    some 5⟩]

/-- The package the Packagist resolver returns on `packagistDemoVersions`
for the request `1.0`. -/
def packagistDemoPkg : ResolvedPackage :=
  ⟨js "packagist", js "p", js "2.5.0", js "https://github.com/x/y", none, js "v2.5.0"⟩

/-- The concrete crates.io response of the membership witness. -/
def cratesDemoInfo : CrateResponse :=
  ⟨⟨js "demo", js "1.0.0", some (js "https://github.com/a/b"), none⟩,
   [⟨js "1.0.0", false, 0⟩]⟩

/-- The package the crates resolver returns on `cratesDemoInfo`. -/
def cratesDemoPkg : ResolvedPackage :=
  ⟨js "crates", js "demo", js "1.0.0", js "https://github.com/a/b", none, js "v1.0.0"⟩

/-- The concrete POM of the membership witness. -/
def mavenDemoPom : JStr :=
  js "<project><scm><connection>scm:git:https://github.com/o/r.git</connection></scm></project>"

/-- The package the Maven resolver returns on `mavenDemoPom` for
`g:art@1.0`. -/
def mavenDemoPkg : ResolvedPackage :=
  ⟨js "maven", js "g:art", js "1.0", js "https://github.com/o/r", none, js "art-1.0"⟩

/-- The concrete PyPI response of the membership witness. -/
def pypiDemoResp : PyPIResponse :=
  ⟨⟨js "1.0.0", none, [(js "Source", js "https://github.com/a/b")]⟩,
   [(js "1.0.0", [⟨js "t", false⟩])]⟩

/-- The package the PyPI resolver returns on `pypiDemoResp`. -/
def pypiDemoPkg : ResolvedPackage :=
  ⟨js "pypi", js "p", js "1.0.0", js "https://github.com/a/b", none, js "v1.0.0"⟩

/-- Claim C1, witness: the amended membership statements instantiated on
one concrete successful resolution per registry. -/
theorem claim_C1_witness :
    npmDemoPkg.version ∈ npmDemoInfo.versions.map Prod.fst ∧
    packagistDemoPkg.version ∈ packagistDemoVersions.map (·.version) ∧
    js "1.0.0" ∈ versionsOfLeaves nugetDemoLeavesA ∧
    cratesDemoPkg.version ∈ cratesDemoInfo.versions.map (·.num) ∧
    mavenDemoPkg.version ∈ [js "1.0"] ∧
    pypiDemoPkg.version ∈ pypiDemoResp.releases.map Prod.fst :=
  ⟨claim_C1_amended.1 (js "zz") none npmDemoInfo npmDemoPkg (by decide),
   claim_C1_amended.2.1 (js "p") (some (js "1.0")) packagistDemoVersions
     packagistDemoPkg (by decide),
   claim_C1_amended.2.2.1 nugetDemoLeavesA (js "pkg") none false (js "1.0.0")
     (by decide),
   claim_C1_amended.2.2.2.1 (js "demo") none cratesDemoInfo (fun _ => false)
     cratesDemoPkg (by decide) (fun v hv => Bool.noConfusion hv) (by decide),
   claim_C1_amended.2.2.2.2.1 (js "g") (js "art") (some (js "1.0")) [js "1.0"] none
     (some mavenDemoPom) mavenDemoPkg (fun l hl => Option.noConfusion hl) (by decide),
   claim_C1_amended.2.2.2.2.2 (js "p") none pypiDemoResp pypiDemoResp pypiDemoPkg
     (by decide) (by decide)⟩

theorem filter_eq_nil_of_none {α : Type} (p : α → Bool) :
    ∀ l : List α, (∀ a ∈ l, p a = false) → l.filter p = [] := by
  intro l
  induction l with
  | nil => intro _; rfl
  | cons x xs ih =>
    intro h
    have hx := h x (List.mem_cons_self x xs)
    simp [List.filter_cons, hx, ih (fun a ha => h a (List.mem_cons_of_mem x ha))]

theorem containsL_append_right (pat : JStr) :
    ∀ x t : JStr, containsL pat t = true → containsL pat (x ++ t) = true := by
  intro x
  induction x with
  | nil => intro t h; exact h
  | cons c cs ih =>
    intro t h
    simp only [List.cons_append, containsL, Bool.or_eq_true]
    exact Or.inr (ih t h)

theorem nugetAllPre_error (leaves : List RegistrationLeaf) (name : JStr)
    (hne : versionsOfLeaves leaves ≠ [])
    (hp : ∀ v ∈ versionsOfLeaves leaves, isPrereleaseVersion v = true) :
    resolveVersionFromLeaves leaves name none false =
      Except.error (nugetNoStableMsg name) := by
  unfold resolveVersionFromLeaves
  rw [if_neg (by simp [jsTruthy])]
  cases hvs : versionsOfLeaves leaves with
  | nil => exact absurd hvs hne
  | cons v vs =>
    have hfil : (v :: vs).filter (fun w => !isPrereleaseVersion w) = [] := by
      apply filter_eq_nil_of_none
      intro a ha
      have := hp a (hvs ▸ ha)
      simp [this]
    show (match (v :: vs).filter (fun w => !isPrereleaseVersion w) with
      | [] => Except.error (nugetNoStableMsg name)
      | s :: ss => Except.ok (reduceLatest s ss)) =
        Except.error (nugetNoStableMsg name)
    rw [hfil]

theorem nugetNoStableMsg_contains (name : JStr) :
    containsL name (nugetNoStableMsg name) = true := by
  unfold nugetNoStableMsg
  have h := containsL_of_append_mid name (js "No stable version found for \"")
    (js "\" on NuGet. Specify a prerelease version explicitly (for example: nuget:" ++
      name ++ js "@<version>)")
  simpa [List.append_assoc] using h

theorem nugetNoStableMsg_hint (name : JStr) :
    containsL (js "Specify a prerelease version explicitly")
      (nugetNoStableMsg name) = true := by
  unfold nugetNoStableMsg
  have h0 : containsL (js "Specify a prerelease version explicitly")
      (js "\" on NuGet. Specify a prerelease version explicitly (for example: nuget:") =
        true := by decide
  have h1 := containsL_append_left _ _ (name ++ js "@<version>)") h0
  have h2 := containsL_append_right _ name _ h1
  have h3 := containsL_append_right _ (js "No stable version found for \"") _ h2
  simpa [List.append_assoc] using h3

theorem packagistAllDev_head (versions : List PackagistVersion)
    (hdev : ∀ w ∈ versions, isDevVersion w = true) :
    packagistSelectVersion versions none = versions.head? := by
  have hfil : versions.filter (fun v => false || !isDevVersion v) = [] := by
    apply filter_eq_nil_of_none
    intro a ha
    simp [hdev a ha]
  simp only [packagistSelectVersion]
  rw [if_neg (by simp [jsTruthy])]
  have hav : packagistAvailableVersions versions false = [] := by
    simp only [packagistAvailableVersions]
    rw [hfil]
    rfl
  rw [hav]
  rfl

/-- Claim C3, counterexample: a Packagist package whose only version is the
dev (prerelease-analog) version `dev-main` resolves successfully to that
version with no explicit request and no allow flag, instead of failing. -/
theorem claim_C3_counterexample :
    (resolvePackagistPackage (js "p") none
        [⟨js "dev-main", js "dev-main",
          some ⟨js "git", js "https://github.com/a/b", js "r"⟩, some 3⟩]).map
      (·.version) = Except.ok (js "dev-main") ∧
    isDevVersion ⟨js "dev-main", js "dev-main",
        some ⟨js "git", js "https://github.com/a/b", js "r"⟩, some 3⟩ = true := by
  decide

/-- Claim C3, amended: the NuGet resolver does fail on an all-prerelease
version set with the documented message (which names the package and
carries the explicit-prerelease hint), but the Packagist resolver's
selection step falls back to the first listed version when every version
is a dev version, silently succeeding. -/
theorem claim_C3_amended :
    (∀ (leaves : List RegistrationLeaf) (name : JStr),
      versionsOfLeaves leaves ≠ [] →
      (∀ v ∈ versionsOfLeaves leaves, isPrereleaseVersion v = true) →
      resolveVersionFromLeaves leaves name none false =
        Except.error (nugetNoStableMsg name)) ∧
    (∀ name : JStr,
      containsL name (nugetNoStableMsg name) = true ∧
      containsL (js "Specify a prerelease version explicitly")
        (nugetNoStableMsg name) = true) ∧
    (∀ versions : List PackagistVersion,
      (∀ w ∈ versions, isDevVersion w = true) →
      packagistSelectVersion versions none = versions.head?) :=
  ⟨fun leaves name hne hp => nugetAllPre_error leaves name hne hp,
   fun name => ⟨nugetNoStableMsg_contains name, nugetNoStableMsg_hint name⟩,
   fun versions hdev => packagistAllDev_head versions hdev⟩

/-- Claim C3, witness: the amended all-prerelease failure applied to the
one-version index `["1.0.0-beta.1"]`. -/
theorem claim_C3_witness :
    resolveVersionFromLeaves [⟨some ⟨some (js "1.0.0-beta.1"), none, none⟩⟩]
        (js "pkg") none false = Except.error (nugetNoStableMsg (js "pkg")) :=
  claim_C3_amended.1 [⟨some ⟨some (js "1.0.0-beta.1"), none, none⟩⟩] (js "pkg")
    (by decide) (by decide)

theorem resolveNpmPackage_explicit (name v : JStr) (info : NpmRegistryResponse)
    (pkg : ResolvedPackage) (hv : v ≠ [])
    (h : resolveNpmPackage name (some v) info = Except.ok pkg) :
    pkg.version = v ∧ v ∈ info.versions.map Prod.fst := by
  have hmem := resolveNpmPackage_mem name (some v) info pkg h
  have hjs : jsOr (some v) (getLatestVersion info) = v := by
    simp only [jsOr, if_neg hv]
  simp only [resolveNpmPackage] at h
  rw [hjs] at h
  by_cases hc : (lookupA info.versions v).isNone = true
  · rw [if_pos hc] at h
    exact Except.noConfusion h
  · rw [if_neg hc] at h
    split at h
    next hrepo => exact Except.noConfusion h
    next url dir hrepo =>
      injection h with h'
      subst h'
      exact ⟨rfl, hmem⟩

theorem resolveNpmPackage_absent (name v : JStr) (info : NpmRegistryResponse)
    (hv : v ≠ []) (habs : lookupA info.versions v = none) :
    resolveNpmPackage name (some v) info =
      Except.error (npmVersionNotFoundMsg name v info) := by
  simp only [resolveNpmPackage]
  have hjs : jsOr (some v) (getLatestVersion info) = v := by
    simp only [jsOr, if_neg hv]
  rw [hjs, habs]
  rfl

theorem resolveVFL_explicit (leaves : List RegistrationLeaf) (name v : JStr)
    (allow : Bool) (r : JStr) (hv : v ≠ [])
    (h : resolveVersionFromLeaves leaves name (some v) allow = Except.ok r) :
    toComparableVersion r = toComparableVersion v ∧ r ∈ versionsOfLeaves leaves := by
  have hmem := resolveVersionFromLeaves_mem leaves name (some v) allow r h
  refine ⟨?_, hmem⟩
  simp only [resolveVersionFromLeaves] at h
  have ht : jsTruthy (some v) = true := by
    cases v with
    | nil => exact absurd rfl hv
    | cons c cs => rfl
  rw [if_pos ht] at h
  split at h
  next leaf hf =>
    split at h
    next v2 hv2 =>
      by_cases he : v2 = []
      · rw [if_pos he] at h
        exact Except.noConfusion h
      · rw [if_neg he] at h
        injection h with h'
        subst h'
        have hpred := List.find?_some hf
        simp only [decide_eq_true_eq] at hpred
        have hle : leafVersionOrEmpty leaf = v2 := by
          simp only [leafVersionOrEmpty, hv2]
          rfl
        rw [hle] at hpred
        exact hpred
    next hv2 => exact Except.noConfusion h
  next hf => exact Except.noConfusion h

theorem resolveVFL_absent (leaves : List RegistrationLeaf) (name v : JStr)
    (allow : Bool) (hv : v ≠ [])
    (habs : ∀ leaf ∈ leaves,
      toComparableVersion (leafVersionOrEmpty leaf) ≠ toComparableVersion v) :
    resolveVersionFromLeaves leaves name (some v) allow =
      Except.error (nugetVersionNotFoundMsg v) := by
  simp only [resolveVersionFromLeaves]
  have ht : jsTruthy (some v) = true := by
    cases v with
    | nil => exact absurd rfl hv
    | cons c cs => rfl
  rw [if_pos ht]
  have hfind : leaves.find?
      (fun leaf => toComparableVersion (leafVersionOrEmpty leaf) =
        toComparableVersion ((some v).getD [])) = none := by
    apply List.find?_eq_none.mpr
    intro x hx
    simp only [decide_eq_true_eq]
    exact habs x hx
  rw [hfind]
  rfl

theorem resolveCrate_explicit (name v : JStr) (info : CrateResponse)
    (versionKnown : JStr → Bool) (hv : v ≠ []) :
    (versionKnown v = false →
      resolveCrate name (some v) info versionKnown =
        Except.error (crateVersionNotFoundMsg name v)) ∧
    (∀ pkg, resolveCrate name (some v) info versionKnown = Except.ok pkg →
      pkg.version = v) := by
  have ht : jsTruthy (some v) = true := by
    cases v with
    | nil => exact absurd rfl hv
    | cons c cs => rfl
  constructor
  · intro hno
    simp only [resolveCrate]
    have hcond : (jsTruthy (some v) && !versionKnown ((some v).getD [])) = true := by
      show (jsTruthy (some v) && !versionKnown v) = true
      rw [ht, hno]
      rfl
    rw [if_pos hcond]
    rfl
  · intro pkg h
    simp only [resolveCrate] at h
    by_cases hc : (jsTruthy (some v) && !versionKnown ((some v).getD [])) = true
    · rw [if_pos hc] at h
      exact Except.noConfusion h
    · rw [if_neg hc] at h
      split at h
      next hrepo => exact Except.noConfusion h
      next repoUrl hrepo =>
        injection h with h'
        subst h'
        show jsOr (some v) info.crate.max_version = v
        simp only [jsOr, if_neg hv]

theorem packagistSelectVersion_isSome (versions : List PackagistVersion)
    (version : Option JStr) (hne : versions ≠ []) :
    (packagistSelectVersion versions version).isSome = true := by
  simp only [packagistSelectVersion]
  cases versions with
  | nil => exact absurd rfl hne
  | cons w ws =>
    by_cases ht : jsTruthy version = true
    · rw [if_pos ht]
      split
      next w1 hf => rfl
      next hf =>
        split
        next w2 hg => rfl
        next hg => rfl
    · rw [if_neg ht]
      split
      next w1 hf => rfl
      next hf => rfl

/-- Claim C4, counterexample: requesting version `1.0` from a Packagist
package whose only version is `2.5.0` succeeds with `2.5.0` substituted
for the request, instead of failing existence verification. -/
theorem claim_C4_counterexample :
    (resolvePackagistPackage (js "p") (some (js "1.0"))
        [⟨js "2.5.0", js "2.5.0.0",
          some ⟨js "git", js "https://github.com/x/y", js "r"⟩, some 5⟩]).map
      (·.version) = Except.ok (js "2.5.0") ∧
    js "1.0" ≠ js "2.5.0" := by decide

/-- Claim C4, amended: npm (exact key lookup), NuGet (case-insensitive
match, with the not-found error on a miss) and crates (existence probe)
verify an explicit version as claimed; but the Packagist selection step
never fails on a non-empty version list — its find-or-fallback chain
always selects some entry, so a missing version is silently substituted. -/
theorem claim_C4_amended :
    (∀ (name v : JStr) (info : NpmRegistryResponse) (pkg : ResolvedPackage),
      v ≠ [] → resolveNpmPackage name (some v) info = Except.ok pkg →
      pkg.version = v ∧ v ∈ info.versions.map Prod.fst) ∧
    (∀ (name v : JStr) (info : NpmRegistryResponse),
      v ≠ [] → lookupA info.versions v = none →
      resolveNpmPackage name (some v) info =
        Except.error (npmVersionNotFoundMsg name v info)) ∧
    (∀ (leaves : List RegistrationLeaf) (name v : JStr) (allow : Bool) (r : JStr),
      v ≠ [] → resolveVersionFromLeaves leaves name (some v) allow = Except.ok r →
      toComparableVersion r = toComparableVersion v ∧ r ∈ versionsOfLeaves leaves) ∧
    (∀ (leaves : List RegistrationLeaf) (name v : JStr) (allow : Bool),
      v ≠ [] →
      (∀ leaf ∈ leaves,
        toComparableVersion (leafVersionOrEmpty leaf) ≠ toComparableVersion v) →
      resolveVersionFromLeaves leaves name (some v) allow =
        Except.error (nugetVersionNotFoundMsg v)) ∧
    (∀ (name v : JStr) (info : CrateResponse) (versionKnown : JStr → Bool),
      v ≠ [] →
      (versionKnown v = false →
        resolveCrate name (some v) info versionKnown =
          Except.error (crateVersionNotFoundMsg name v)) ∧
      (∀ pkg, resolveCrate name (some v) info versionKnown = Except.ok pkg →
        pkg.version = v)) ∧
    (∀ (versions : List PackagistVersion) (version : Option JStr),
      versions ≠ [] → (packagistSelectVersion versions version).isSome = true) :=
  ⟨fun name v info pkg hv h => resolveNpmPackage_explicit name v info pkg hv h,
   fun name v info hv habs => resolveNpmPackage_absent name v info hv habs,
   fun leaves name v allow r hv h => resolveVFL_explicit leaves name v allow r hv h,
   fun leaves name v allow hv habs => resolveVFL_absent leaves name v allow hv habs,
   fun name v info vk hv => resolveCrate_explicit name v info vk hv,
   fun versions version hne => packagistSelectVersion_isSome versions version hne⟩

/-- Claim C4, witness: the amended statements instantiated on concrete
registry data — npm hit and miss, NuGet hit and miss, a crates miss, and
the never-failing Packagist selection. -/
theorem claim_C4_witness :
    (npmDemoPkg.version = js "1.0.0" ∧
      js "1.0.0" ∈ npmDemoInfo.versions.map Prod.fst) ∧
    resolveNpmPackage (js "zz") (some (js "9.9.9")) npmDemoInfo =
      Except.error (npmVersionNotFoundMsg (js "zz") (js "9.9.9") npmDemoInfo) ∧
    (toComparableVersion (js "4.3.1") = toComparableVersion (js "4.3.1") ∧
      js "4.3.1" ∈ versionsOfLeaves nugetDemoLeavesB) ∧
    resolveVersionFromLeaves nugetDemoLeavesB (js "pkg") (some (js "9.9.9")) false =
      Except.error (nugetVersionNotFoundMsg (js "9.9.9")) ∧
    resolveCrate (js "demo") (some (js "9.9.9")) cratesDemoInfo (fun _ => false) =
      Except.error (crateVersionNotFoundMsg (js "demo") (js "9.9.9")) ∧
    (packagistSelectVersion packagistDemoVersions (some (js "1.0"))).isSome = true :=
  ⟨claim_C4_amended.1 (js "zz") (js "1.0.0") npmDemoInfo npmDemoPkg (by decide)
     (by decide),
   claim_C4_amended.2.1 (js "zz") (js "9.9.9") npmDemoInfo (by decide) (by decide),
   claim_C4_amended.2.2.1 nugetDemoLeavesB (js "pkg") (js "4.3.1") false (js "4.3.1")
     (by decide) (by decide),
   claim_C4_amended.2.2.2.1 nugetDemoLeavesB (js "pkg") (js "9.9.9") false
     (by decide) (by decide),
   (claim_C4_amended.2.2.2.2.1 (js "demo") (js "9.9.9") cratesDemoInfo
     (fun _ => false) (by decide)).1 (by decide),
   claim_C4_amended.2.2.2.2.2 packagistDemoVersions (some (js "1.0")) (by decide)⟩

theorem resolveNpmPackage_gitTag (name : JStr) (version : Option JStr)
    (info : NpmRegistryResponse) (pkg : ResolvedPackage)
    (h : resolveNpmPackage name version info = Except.ok pkg) : pkg.gitTag ≠ [] := by
  simp only [resolveNpmPackage] at h
  by_cases hc :
      (lookupA info.versions (jsOr version (getLatestVersion info))).isNone = true
  · rw [if_pos hc] at h
    exact Except.noConfusion h
  · rw [if_neg hc] at h
    split at h
    next hrepo => exact Except.noConfusion h
    next url dir hrepo =>
      injection h with h'
      subst h'
      show 'v' :: jsOr version (getLatestVersion info) ≠ []
      exact List.cons_ne_nil _ _

theorem resolvePyPIPackage_gitTag (name : JStr) (version : Option JStr)
    (resp fullResp : PyPIResponse) (pkg : ResolvedPackage)
    (h : resolvePyPIPackage name version resp fullResp = Except.ok pkg) :
    pkg.gitTag ≠ [] := by
  simp only [resolvePyPIPackage] at h
  split at h
  next hrepo => exact Except.noConfusion h
  next repoUrl hrepo =>
    injection h with h'
    subst h'
    show 'v' :: resp.info.version ≠ []
    exact List.cons_ne_nil _ _

theorem resolveCrate_gitTag (name : JStr) (version : Option JStr)
    (info : CrateResponse) (versionKnown : JStr → Bool) (pkg : ResolvedPackage)
    (h : resolveCrate name version info versionKnown = Except.ok pkg) :
    pkg.gitTag ≠ [] := by
  simp only [resolveCrate] at h
  by_cases hc : (jsTruthy version && !versionKnown (version.getD [])) = true
  · rw [if_pos hc] at h
    exact Except.noConfusion h
  · rw [if_neg hc] at h
    split at h
    next hrepo => exact Except.noConfusion h
    next repoUrl hrepo =>
      injection h with h'
      subst h'
      show 'v' :: jsOr version info.crate.max_version ≠ []
      exact List.cons_ne_nil _ _

theorem resolvePackagistPackage_gitTag (name : JStr) (version : Option JStr)
    (versions : List PackagistVersion) (pkg : ResolvedPackage)
    (h : resolvePackagistPackage name version versions = Except.ok pkg) :
    pkg.gitTag ≠ [] := by
  simp only [resolvePackagistPackage] at h
  by_cases hnil : versions = []
  · rw [if_pos hnil] at h
    exact Except.noConfusion h
  · rw [if_neg hnil] at h
    split at h
    next hsel => exact Except.noConfusion h
    next rv hsel =>
      split at h
      next hrepo => exact Except.noConfusion h
      next repoUrl hrepo =>
        injection h with h'
        subst h'
        show (if startsWithL (js "v") rv.version then rv.version
          else 'v' :: rv.version) ≠ []
        by_cases hs : startsWithL (js "v") rv.version = true
        · rw [if_pos hs]
          cases hver : rv.version with
          | nil =>
            rw [hver] at hs
            exact absurd hs (by decide)
          | cons c cs => exact List.cons_ne_nil c cs
        · rw [if_neg hs]
          exact List.cons_ne_nil _ _

theorem resolveNuGetPackage_gitTag (packageName : JStr) (version : Option JStr)
    (allow : Bool) (leaves : List RegistrationLeaf)
    (nuspec : Option NuGetMetadataCandidate) (pkg : ResolvedPackage)
    (h : resolveNuGetPackage packageName version allow leaves nuspec =
      Except.ok pkg) : pkg.gitTag ≠ [] := by
  simp only [resolveNuGetPackage] at h
  by_cases hn : (parseNuGetSpec packageName).1 = []
  · rw [if_pos hn] at h
    exact Except.noConfusion h
  · rw [if_neg hn] at h
    by_cases hl : leaves = []
    · rw [if_pos hl] at h
      exact Except.noConfusion h
    · rw [if_neg hl] at h
      split at h
      next e hrv => exact Except.noConfusion h
      next rv hrv =>
        split at h
        next hfl => exact Except.noConfusion h
        next leaf hfl =>
          split at h
          next hsel => exact Except.noConfusion h
          next cand hsel =>
            split at h
            next hurl => exact Except.noConfusion h
            next repoUrl hurl =>
              injection h with h'
              subst h'
              show 'v' :: rv ≠ []
              exact List.cons_ne_nil _ _

theorem resolveMavenPackage_gitTag (g a : JStr) (version : Option JStr)
    (published : List JStr) (latest : Option JStr) (pom : Option JStr)
    (pkg : ResolvedPackage)
    (htag : ∀ info, fetchScmInfo pom = some info → info.scmTag ≠ some [])
    (h : resolveMavenPackage g a version published latest pom = Except.ok pkg) :
    pkg.gitTag ≠ [] := by
  simp only [resolveMavenPackage] at h
  split at h
  next e hstep => exact Except.noConfusion h
  next rv hstep =>
    split at h
    next hscm => exact Except.noConfusion h
    next scm hscm =>
      injection h with h'
      subst h'
      show (match scm.scmTag with
        | some t => t
        | none => a ++ js "-" ++ rv) ≠ []
      cases htg : scm.scmTag with
      | none =>
        show a ++ js "-" ++ rv ≠ []
        intro hempty
        have h1 := List.append_eq_nil.mp hempty
        have h2 := List.append_eq_nil.mp h1.1
        exact absurd h2.2 (by decide)
      | some t =>
        show t ≠ []
        intro hteq
        exact htag scm hscm (by rw [htg, hteq])

/-- Claim C9, counterexample: a POM whose `<scm>` block carries a blank
`<tag> </tag>` element resolves to a package whose `gitTag` is the empty
string — the code trims the tag to `""` and the `??` fallback does not
replace it. -/
theorem claim_C9_counterexample :
    (resolveMavenPackage (js "g") (js "art") (some (js "1.0")) [js "1.0"] none
        (some (js "<project><scm><tag> </tag><connection>scm:git:https://github.com/o/r.git</connection></scm></project>"))).map
      (·.gitTag) = Except.ok [] := by decide

/-- Claim C9, amended: the gitTag of every successfully resolved package
is non-empty for npm, PyPI, crates, Packagist and NuGet (all prefix a `v`
or reuse a `v`-prefixed version); for Maven it is non-empty only when the
POM's extracted `<tag>` is never the empty string, since an empty explicit
tag is passed through unchanged. -/
theorem claim_C9_amended :
    (∀ (name : JStr) (version : Option JStr) (info : NpmRegistryResponse)
        (pkg : ResolvedPackage),
      resolveNpmPackage name version info = Except.ok pkg → pkg.gitTag ≠ []) ∧
    (∀ (name : JStr) (version : Option JStr) (resp fullResp : PyPIResponse)
        (pkg : ResolvedPackage),
      resolvePyPIPackage name version resp fullResp = Except.ok pkg →
      pkg.gitTag ≠ []) ∧
    (∀ (name : JStr) (version : Option JStr) (info : CrateResponse)
        (versionKnown : JStr → Bool) (pkg : ResolvedPackage),
      resolveCrate name version info versionKnown = Except.ok pkg →
      pkg.gitTag ≠ []) ∧
    (∀ (name : JStr) (version : Option JStr) (versions : List PackagistVersion)
        (pkg : ResolvedPackage),
      resolvePackagistPackage name version versions = Except.ok pkg →
      pkg.gitTag ≠ []) ∧
    (∀ (packageName : JStr) (version : Option JStr) (allow : Bool)
        (leaves : List RegistrationLeaf) (nuspec : Option NuGetMetadataCandidate)
        (pkg : ResolvedPackage),
      resolveNuGetPackage packageName version allow leaves nuspec = Except.ok pkg →
      pkg.gitTag ≠ []) ∧
    (∀ (g a : JStr) (version : Option JStr) (published : List JStr)
        (latest : Option JStr) (pom : Option JStr) (pkg : ResolvedPackage),
      (∀ info, fetchScmInfo pom = some info → info.scmTag ≠ some []) →
      resolveMavenPackage g a version published latest pom = Except.ok pkg →
      pkg.gitTag ≠ []) :=
  ⟨fun name version info pkg h => resolveNpmPackage_gitTag name version info pkg h,
   fun name version resp fullResp pkg h =>
     resolvePyPIPackage_gitTag name version resp fullResp pkg h,
   fun name version info vk pkg h => resolveCrate_gitTag name version info vk pkg h,
   fun name version versions pkg h =>
     resolvePackagistPackage_gitTag name version versions pkg h,
   fun packageName version allow leaves nuspec pkg h =>
     resolveNuGetPackage_gitTag packageName version allow leaves nuspec pkg h,
   fun g a version published latest pom pkg htag h =>
     resolveMavenPackage_gitTag g a version published latest pom pkg htag h⟩

/-- One-leaf registration index carrying a git-typed repository field. -/
def nugetDemoLeavesC : List RegistrationLeaf :=
  [⟨some ⟨some (js "1.0.0"), some ⟨some (js "git"), some (js "https://github.com/a/b")⟩,
    none⟩⟩]

/-- The package the NuGet resolver returns on `nugetDemoLeavesC`. -/
def nugetDemoPkg : ResolvedPackage :=
  ⟨js "nuget", js "pkg", js "1.0.0", js "https://github.com/a/b", none, js "v1.0.0"⟩

/-- Claim C9, witness: the amended non-empty-gitTag statements
instantiated on one concrete successful resolution per registry. -/
theorem claim_C9_witness :
    npmDemoPkg.gitTag ≠ [] ∧ pypiDemoPkg.gitTag ≠ [] ∧ cratesDemoPkg.gitTag ≠ [] ∧
    packagistDemoPkg.gitTag ≠ [] ∧ nugetDemoPkg.gitTag ≠ [] ∧
    mavenDemoPkg.gitTag ≠ [] :=
  ⟨claim_C9_amended.1 (js "zz") none npmDemoInfo npmDemoPkg (by decide),
   claim_C9_amended.2.1 (js "p") none pypiDemoResp pypiDemoResp pypiDemoPkg
     (by decide),
   claim_C9_amended.2.2.1 (js "demo") none cratesDemoInfo (fun _ => false)
     cratesDemoPkg (by decide),
   claim_C9_amended.2.2.2.1 (js "p") (some (js "1.0")) packagistDemoVersions
     packagistDemoPkg (by decide),
   claim_C9_amended.2.2.2.2.1 (js "pkg") none false nugetDemoLeavesC none
     nugetDemoPkg (by decide),
   claim_C9_amended.2.2.2.2.2 (js "g") (js "art") (some (js "1.0")) [js "1.0"] none
     (some mavenDemoPom) mavenDemoPkg
     (fun info hinfo => by
       have hconc : fetchScmInfo (some mavenDemoPom) =
           some ⟨js "https://github.com/o/r", none⟩ := by decide
       rw [hconc] at hinfo
       injection hinfo with h'
       rw [← h']
       decide)
     (by decide)⟩

theorem splitAtLastChar_none {c : Char} :
    ∀ {y : JStr}, (∀ d ∈ y, d ≠ c) → splitAtLastChar c y = none := by
  intro y
  induction y with
  | nil => intro _; rfl
  | cons d rest ih =>
    intro h
    have hrec := ih (fun e he => h e (List.mem_cons_of_mem d he))
    simp only [splitAtLastChar, hrec]
    rw [if_neg (h d (List.mem_cons_self d rest))]

theorem splitAtLastChar_append {c : Char} (y : JStr) (hy : ∀ d ∈ y, d ≠ c) :
    ∀ x : JStr, splitAtLastChar c (x ++ c :: y) = some (x, y) := by
  intro x
  induction x with
  | nil =>
    simp [List.nil_append, splitAtLastChar, splitAtLastChar_none hy]
  | cons d ds ih =>
    simp only [List.cons_append, splitAtLastChar, List.append_eq, ih]

theorem parseMavenSpec_at_wins (g a v1 v2 spec : JStr)
    (hspec : spec = g ++ js ":" ++ a ++ js ":" ++ v1 ++ js "@" ++ v2)
    (htrim : trimL spec = spec)
    (hv2at : ∀ d ∈ v2, d ≠ '@')
    (hgc : ∀ d ∈ g, d ≠ ':') (hac : ∀ d ∈ a, d ≠ ':')
    (htg : trimL g = g) (hta : trimL a = a) (htv : trimL v2 = v2)
    (hg : g ≠ []) (ha : a ≠ []) (hv2 : v2 ≠ []) :
    parseMavenSpec spec = Except.ok ⟨g, a, some v2⟩ := by
  have hspec2 : spec = (g ++ js ":" ++ a ++ js ":" ++ v1) ++ '@' :: v2 := by
    rw [hspec, (by decide : js "@" = ['@'])]
    simp [List.append_assoc]
  have hsplit : splitAtLastChar '@' spec =
      some (g ++ js ":" ++ a ++ js ":" ++ v1, v2) := by
    rw [hspec2]
    exact splitAtLastChar_append v2 hv2at _
  have hx : g ++ js ":" ++ a ++ js ":" ++ v1 ≠ [] := by
    intro hc
    have h1 := List.append_eq_nil.mp hc
    have h2 := List.append_eq_nil.mp h1.1
    exact absurd h2.2 (by decide)
  have hassoc : g ++ js ":" ++ a ++ js ":" ++ v1 = g ++ ':' :: (a ++ ':' :: v1) := by
    rw [(by decide : js ":" = [':'])]
    simp [List.append_assoc]
  have hparts : splitOnCharL ':' (g ++ js ":" ++ a ++ js ":" ++ v1) =
      g :: a :: splitOnCharL ':' v1 := by
    rw [hassoc, splitOnCharL_append _ hgc, splitOnCharL_append _ hac]
  simp only [parseMavenSpec]
  rw [htrim]
  simp only [hsplit]
  rw [if_pos hx, htv, if_neg hv2]
  simp only [hparts]
  rw [if_neg (by simp only [List.length_cons]; omega)]
  simp only [List.get?, Option.getD, htg, hta]
  rw [if_neg (by simp [hg, ha])]

/-- Claim C10: the coordinate parser maps `group.id:artifact:1.2.3` to the
expected coordinates, maps `group.id:artifact@1.2.3` to the same result,
and in general a trailing `@version` wins over a third colon-delimited
segment whenever both are present (for any trim-fixed, separator-clean
components). -/
theorem claim_C10 :
    parseMavenSpec (js "group.id:artifact:1.2.3") =
      Except.ok ⟨js "group.id", js "artifact", some (js "1.2.3")⟩ ∧
    parseMavenSpec (js "group.id:artifact@1.2.3") =
      Except.ok ⟨js "group.id", js "artifact", some (js "1.2.3")⟩ ∧
    (∀ (g a v1 v2 spec : JStr),
      spec = g ++ js ":" ++ a ++ js ":" ++ v1 ++ js "@" ++ v2 →
      trimL spec = spec →
      (∀ d ∈ v2, d ≠ '@') →
      (∀ d ∈ g, d ≠ ':') → (∀ d ∈ a, d ≠ ':') →
      trimL g = g → trimL a = a → trimL v2 = v2 →
      g ≠ [] → a ≠ [] → v2 ≠ [] →
      parseMavenSpec spec = Except.ok ⟨g, a, some v2⟩) :=
  ⟨by decide, by decide,
   fun g a v1 v2 spec hspec htrim hv2at hgc hac htg hta htv hg ha hv2 =>
     parseMavenSpec_at_wins g a v1 v2 spec hspec htrim hv2at hgc hac htg hta htv
       hg ha hv2⟩

/-- Claim C10, witness: the general at-sign precedence applied to the
concrete specifier `group.id:artifact:1.2.3@9.9.9`, where the `@` version
beats the colon segment. -/
theorem claim_C10_witness :
    parseMavenSpec (js "group.id:artifact:1.2.3@9.9.9") =
      Except.ok ⟨js "group.id", js "artifact", some (js "9.9.9")⟩ :=
  claim_C10.2.2 (js "group.id") (js "artifact") (js "1.2.3") (js "9.9.9")
    (js "group.id:artifact:1.2.3@9.9.9") (by decide) (by decide) (by decide)
    (by decide) (by decide) (by decide) (by decide) (by decide) (by decide)
    (by decide) (by decide)

example :
    parseMavenSpec (js "org.springframework:spring-core") =
      Except.ok ⟨js "org.springframework", js "spring-core", none⟩ := by decide
example :
    parseMavenSpec (js "group.id:artifact:1.2.3") =
      Except.ok ⟨js "group.id", js "artifact", some (js "1.2.3")⟩ := by decide
example :
    parseMavenSpec (js "group.id:artifact@1.2.3") =
      Except.ok ⟨js "group.id", js "artifact", some (js "1.2.3")⟩ := by decide
example :
    parseMavenSpec (js "org.springframework:spring-core:6.0.0@6.1.0") =
      Except.ok ⟨js "org.springframework", js "spring-core", some (js "6.1.0")⟩ := by
  decide
example :
    parseMavenSpec (js "  org.springframework:spring-core  ") =
      Except.ok ⟨js "org.springframework", js "spring-core", none⟩ := by decide
example :
    parseMavenSpec (js ":spring-core") = Except.error (mavenEmptyComponentMsg (js ":spring-core")) := by
  decide
example :
    normalizeScmUrl (js "scm:git:https://github.com/owner/repo.git") =
      some (js "https://github.com/owner/repo") := by decide
example :
    normalizeScmUrl (js "https://github.com/a/b/c") =
      some (js "https://github.com/a/b") := by decide
example :
    normalizeScmUrl (js "https://github.com/a") = some (js "https://github.com/a") := by
  decide
example :
    fetchScmInfo
        (some (js "<project><scm><tag> </tag><connection>scm:git:https://github.com/o/r.git</connection></scm></project>")) =
      some ⟨js "https://github.com/o/r", some []⟩ := by decide
example :
    compareNuGetVersions (js "4.3.2-dev-02419") (js "4.3.1") > 0 := by decide
example :
    resolveVersionFromLeaves
        [⟨some ⟨some (js "1.0.0"), none, none⟩⟩, ⟨some ⟨some (js "2.0.0-beta"), none, none⟩⟩]
        (js "pkg") none false = Except.ok (js "1.0.0") := by decide
example :
    resolveVersionFromLeaves
        [⟨some ⟨some (js "4.3.1"), none, none⟩⟩, ⟨some ⟨some (js "4.3.2-dev-02419"), none, none⟩⟩]
        (js "pkg") none false = Except.ok (js "4.3.1") := by decide
example :
    resolveVersionFromLeaves
        [⟨some ⟨some (js "4.3.1"), none, none⟩⟩, ⟨some ⟨some (js "4.3.2-dev-02419"), none, none⟩⟩]
        (js "pkg") none true = Except.ok (js "4.3.2-dev-02419") := by decide
example :
    resolveVersionFromLeaves [⟨some ⟨some (js "1.0.0-beta.1"), none, none⟩⟩]
        (js "pkg") none false = Except.error (nugetNoStableMsg (js "pkg")) := by decide
example :
    resolvePackagistPackage (js "p") none
        [⟨js "dev-main", js "dev-main", some ⟨js "git", js "https://github.com/a/b", js "r"⟩, some 3⟩] =
      Except.ok
        ⟨js "packagist", js "p", js "dev-main", js "https://github.com/a/b", none,
          js "vdev-main"⟩ := by decide
example :
    resolvePackagistPackage (js "p") (some (js "1.0"))
        [⟨js "2.5.0", js "2.5.0.0", some ⟨js "git", js "https://github.com/x/y", js "r"⟩, some 5⟩] =
      Except.ok
        ⟨js "packagist", js "p", js "2.5.0", js "https://github.com/x/y", none,
          js "v2.5.0"⟩ := by decide
example :
    resolveCrate (js "demo") none
        ⟨⟨js "demo", js "2.0.0", some (js "https://github.com/a/b"), none⟩,
          [⟨js "1.0.0", false, 0⟩]⟩ (fun _ => false) =
      Except.ok
        ⟨js "crates", js "demo", js "2.0.0", js "https://github.com/a/b", none,
          js "v2.0.0"⟩ := by decide
example :
    resolveNpmPackage (js "zz") none
        ⟨[(js "1.0.0", ⟨none⟩)], js "1.0.0",
          some ⟨some (js "https://example.com/foo.git"), none⟩⟩ =
      Except.ok
        ⟨js "npm", js "zz", js "1.0.0", js "https://example.com/foo", none,
          js "v1.0.0"⟩ := by decide
example :
    resolveMavenPackage (js "g") (js "art") (some (js "1.0")) [js "1.0"] none
        (some (js "<project><scm><tag> </tag><connection>scm:git:https://github.com/o/r.git</connection></scm></project>")) =
      Except.ok ⟨js "maven", js "g:art", js "1.0", js "https://github.com/o/r", none, []⟩ := by
  decide
example : startsWithL (js "ab") (js "abc") = true := by decide
example : containsL (js "tree") (js "x/tree/y") = true := by decide
example : endsWithL (js ".git") (js "a/.git") = true := by decide
example : dropSuffixIf (js ".git") (js "a/.git") = js "a/" := by decide
example : truncFrom (js "/tree/") (js "a/b/tree/c") = js "a/b" := by decide
example : splitOnCharL '.' (js "1.2.3") = [js "1", js "2", js "3"] := by decide
example : splitAtLastChar '@' (js "a@b@c") = some (js "a@b", js "c") := by decide
example : jsSplit2 '-' (js "1.0-alpha-2") = (js "1.0", some (js "alpha")) := by decide
example : splitFirstSub (js "://") (js "https://x") = some (js "https", js "x") := by decide
example : parseIntOr0 (js "08x") = 8 := by decide
example : trimL (js "  a b ") = js "a b" := by decide
example :
    normalizeNuGetRepoUrl (js "git+https://github.com/a/b.git/tree/dev?x=1#frag") =
      some (js "https://github.com/a/b") := by decide
example :
    normalizeRepoUrl (js "git+https://github.com/a/b.git/tree/dev?x=1#frag") =
      js "git+https://github.com/a/b.git" := by decide
example :
    npmNormalizeRepoUrl (js "git+https://github.com/a/b.git/tree/dev?x=1#frag") =
      js "https://github.com/a/b.git/tree/dev?x=1#frag" := by decide
example :
    normalizeNuGetRepoUrl (js "https://github.com/a/.git/tree/x") =
      some (js "https://github.com/a") := by decide
example : normalizeNuGetRepoUrl (js "https://example.com/a/b") = none := by decide
example : normalizeRepoUrl (normalizeRepoUrl (js "a/.git")) ≠ normalizeRepoUrl (js "a/.git") := by decide
